import Mathlib

/-!
Shallow embedding of `calculateExpenseSplit` from `src/firebase/nativeConfig.js`
(the expense-settlement engine of the TidyTabs repository), together with
theorems settling the specification claims about it.

JavaScript numbers are modelled as exact rationals, with `Option ℚ` used where
NaN can flow (`none` encodes NaN).  A JavaScript value supplied as an expense
`amount` is observed by the function only through its truthiness (`!amount`)
and its numeric conversion (`Number(amount)`), so it is modelled by exactly
those two observations.
-/

namespace TidyTabs

/-- A JavaScript value as observed by `calculateExpenseSplit`: its truthiness
and its numeric conversion `Number(v)` (`none` encodes NaN).  E.g. the number
`5` is `⟨true, some 5⟩`, the number `0` is `⟨false, some 0⟩`, `NaN` is
`⟨false, none⟩`, the string `"abc"` is `⟨true, none⟩`, `null` is
`⟨false, some 0⟩`. -/
structure JSValue where
  truthy : Bool
  toNum : Option ℚ
deriving DecidableEq, Repr

/-- An expense record, as read by the algorithm (`const { payer, amount } = expense`). -/
structure Expense where
  payer : String
  amount : JSValue
deriving DecidableEq, Repr

/-- An entry of the `creditors`/`debtors` work lists: `{ name: member, balance: ... }`. -/
structure Party where
  name : String
  balance : ℚ
deriving DecidableEq, Repr

/-- An output transaction `{ from, to, amount: amount.toFixed(2) }`. -/
structure Txn where
  fromName : String
  toName : String
  amount : String
deriving DecidableEq, Repr

/-- JavaScript `+` on numbers, with NaN propagation. -/
def jsAdd : Option ℚ → Option ℚ → Option ℚ
  | some a, some b => some (a + b)
  | _, _ => none

/-- JavaScript `-` on numbers, with NaN propagation. -/
def jsSub : Option ℚ → Option ℚ → Option ℚ
  | some a, some b => some (a - b)
  | _, _ => none

/-- `Math.round(q * 100) / 100`: rounding to 2 decimals, ties toward `+∞`
(`Math.round(x) = ⌊x + 1/2⌋`). -/
def rnd2 (q : ℚ) : ℚ := (⌊q * 100 + 1 / 2⌋ : ℚ) / 100

/-- `String.prototype.trim()`: strip leading and trailing whitespace. -/
def jsTrim (s : String) : String :=
  ⟨((s.data.dropWhile Char.isWhitespace).reverse.dropWhile Char.isWhitespace).reverse⟩

/-- The filter `member => member && member.trim() !== ""` (a string is truthy
iff it is nonempty). -/
def validName (m : String) : Bool := !(m == "") && !(jsTrim m == "")

/-- `members.filter(member => member && member.trim() !== "")`. -/
def validMembersOf (ms : List String) : List String := ms.filter validName

/-- `Object.keys` order for an object whose keys were inserted in the order of
the given list: each key appears once, at its first insertion position. -/
def objectKeys : List String → List String
  | [] => []
  | m :: l => m :: (objectKeys l).filter (fun x => !(x == m))

/-- One step of the expense aggregation loop:
`if (!payer || !validMembers.includes(payer) || !amount) return;`
`totalSpent[payer] = (totalSpent[payer] || 0) + Number(amount);`
(`x || 0` maps NaN — and an untouched `0` — to `0`). -/
def spendStep (vm : List String) (ts : String → Option ℚ) (e : Expense) : String → Option ℚ :=
  if e.payer == "" || !(vm.contains e.payer) || !e.amount.truthy then ts
  else fun m =>
    if m == e.payer then
      match e.amount.toNum with
      | none => none
      | some q => some ((ts e.payer).getD 0 + q)
    else ts m

/-- `totalSpent` after the initialisation loop `validMembers.forEach(member => totalSpent[member] = 0)`. -/
def initSpent (vm : List String) : String → Option ℚ :=
  fun m => if vm.contains m then some 0 else none

/-- `totalSpent` after aggregating all expenses. -/
def totalSpentAfter (vm : List String) (es : List Expense) : String → Option ℚ :=
  es.foldl (spendStep vm) (initSpent vm)

/-- `Object.values(totalSpent).reduce((sum, amount) => sum + amount, 0)`, as a
function of the aggregated `totalSpent` map. -/
def totalExpensesTS (vm : List String) (ts : String → Option ℚ) : Option ℚ :=
  (objectKeys vm).foldl (fun s m => jsAdd s (ts m)) (some 0)

/-- `Object.values(totalSpent).reduce((sum, amount) => sum + amount, 0)`. -/
def totalExpensesOf (vm : List String) (es : List Expense) : Option ℚ :=
  totalExpensesTS vm (totalSpentAfter vm es)

/-- `totalExpenses / validMembers.length`, as a function of the `totalSpent` map. -/
def fairShareTS (vm : List String) (ts : String → Option ℚ) : Option ℚ :=
  (totalExpensesTS vm ts).map (fun t => t / (vm.length : ℚ))

/-- `totalExpenses / validMembers.length`. -/
def fairShareOf (vm : List String) (es : List Expense) : Option ℚ :=
  fairShareTS vm (totalSpentAfter vm es)

/-- `balances[member] = totalSpent[member] - fairSharePerPerson`, as a function
of the `totalSpent` map. -/
def balanceTS (vm : List String) (ts : String → Option ℚ) (m : String) : Option ℚ :=
  jsSub (ts m) (fairShareTS vm ts)

/-- `balances[member] = totalSpent[member] - fairSharePerPerson`. -/
def balanceOf (vm : List String) (es : List Expense) (m : String) : Option ℚ :=
  balanceTS vm (totalSpentAfter vm es) m

/-- The `creditors` list: members (in `Object.keys(balances)` order) with
`balances[member] > 0` (false for NaN), as a function of the `totalSpent` map. -/
def creditorsTS (vm : List String) (ts : String → Option ℚ) : List Party :=
  (objectKeys vm).filterMap (fun m =>
    match balanceTS vm ts m with
    | some b => if 0 < b then some ⟨m, b⟩ else none
    | none => none)

/-- The `creditors` list. -/
def creditorsOf (vm : List String) (es : List Expense) : List Party :=
  creditorsTS vm (totalSpentAfter vm es)

/-- The `debtors` list: members with `balances[member] < 0` (false for NaN),
as a function of the `totalSpent` map. -/
def debtorsTS (vm : List String) (ts : String → Option ℚ) : List Party :=
  (objectKeys vm).filterMap (fun m =>
    match balanceTS vm ts m with
    | some b => if b < 0 then some ⟨m, b⟩ else none
    | none => none)

/-- The `debtors` list. -/
def debtorsOf (vm : List String) (es : List Expense) : List Party :=
  debtorsTS vm (totalSpentAfter vm es)

/-- `creditors.sort((a, b) => b.balance - a.balance)`: stable sort, descending. -/
def sortCreditors (l : List Party) : List Party :=
  List.insertionSort (fun a b => b.balance ≤ a.balance) l

/-- `debtors.sort((a, b) => a.balance - b.balance)`: stable sort, ascending. -/
def sortDebtors (l : List Party) : List Party :=
  List.insertionSort (fun a b => a.balance ≤ b.balance) l

/-- The character `'0' + d` for a digit value `d`. -/
def digitChar (d : ℕ) : Char := Char.ofNat (48 + d)

/-- Fuel-guarded digit recursion (structural, so the kernel can evaluate it;
`natDigits` supplies fuel `n`, which always suffices). -/
def natDigitsAux : ℕ → ℕ → List Char
  | 0, n => [digitChar n]
  | fuel + 1, n =>
    if n < 10 then [digitChar n]
    else natDigitsAux fuel (n / 10) ++ [digitChar (n % 10)]

/-- Decimal digits of a natural number, most significant first. -/
def natDigits (n : ℕ) : List Char := natDigitsAux n n

/-- A two-digit rendering of `r < 100` (zero padded on the left). -/
def pad2 (r : ℕ) : List Char := if r < 10 then '0' :: natDigits r else natDigits r

/-- The characters of `(k / 100).toFixed(2)` for a whole number of cents `k`. -/
def centsChars (k : ℕ) : List Char := natDigits (k / 100) ++ '.' :: pad2 (k % 100)

/-- `Number.prototype.toFixed(2)`: render with exactly two digits after the
decimal point (nearest such decimal, ties with the larger numerator). -/
def toFixed2 (q : ℚ) : String :=
  if q < 0 then ⟨'-' :: centsChars (⌊-q * 100 + 1 / 2⌋).toNat⟩
  else ⟨centsChars (⌊q * 100 + 1 / 2⌋).toNat⟩

/-- Numeric value of a decimal digit character. -/
def digitVal (c : Char) : ℕ := c.toNat - 48

/-- Read a natural number from decimal digit characters. -/
def readNat (l : List Char) : ℕ := l.foldl (fun a c => 10 * a + digitVal c) 0

/-- Parse a decimal string of the form `intpart.fracpart` (two fractional
digits) back into a rational. -/
def parseAmount (s : String) : ℚ :=
  (readNat (s.data.takeWhile (fun c => !(c == '.'))) : ℚ)
    + (readNat ((s.data.dropWhile (fun c => !(c == '.'))).drop 1) : ℚ) / 100

/-- Rounding to 2 decimals moves a value up by at most `1/200`. -/
theorem rnd2_le (q : ℚ) : rnd2 q ≤ q + 1 / 200 := by
  have h := Int.floor_le (q * 100 + 1 / 2)
  unfold rnd2
  rw [div_le_iff₀ (by norm_num : (0 : ℚ) < 100)]
  linarith

/-- Rounding to 2 decimals moves a value down by less than `1/200`. -/
theorem rnd2_ge (q : ℚ) : q - 1 / 200 < rnd2 q := by
  have h := Int.lt_floor_add_one (q * 100 + 1 / 2)
  unfold rnd2
  rw [lt_div_iff₀ (by norm_num : (0 : ℚ) < 100)]
  linarith

/-- Rounding a nonnegative value to 2 decimals is nonnegative. -/
theorem rnd2_nonneg {q : ℚ} (h : 0 ≤ q) : 0 ≤ rnd2 q := by
  unfold rnd2
  have h0 : (0 : ℤ) ≤ ⌊q * 100 + 1 / 2⌋ := by
    rw [Int.le_floor]
    push_cast
    linarith
  positivity

/-- A positive rounded value is a positive whole number of cents. -/
theorem rnd2_pos_cents {q : ℚ} (h : 0 < rnd2 q) : ∃ k : ℕ, 0 < k ∧ rnd2 q = (k : ℚ) / 100 := by
  refine ⟨(⌊q * 100 + 1 / 2⌋).toNat, ?_, ?_⟩
  · by_contra hk
    have h0 : ⌊q * 100 + 1 / 2⌋ ≤ 0 := by omega
    have : rnd2 q ≤ 0 := by
      unfold rnd2
      apply div_nonpos_of_nonpos_of_nonneg _ (by norm_num)
      exact_mod_cast h0
    linarith
  · unfold rnd2 at h ⊢
    have h0 : (0 : ℤ) ≤ ⌊q * 100 + 1 / 2⌋ := by
      by_contra h0
      push_neg at h0
      have : ((⌊q * 100 + 1 / 2⌋ : ℚ)) < 0 := by exact_mod_cast h0
      have : (⌊q * 100 + 1 / 2⌋ : ℚ) / 100 < 0 := by
        apply div_neg_of_neg_of_pos this (by norm_num)
      linarith
    have hc : ((⌊q * 100 + 1 / 2⌋.toNat : ℕ) : ℚ) = ((⌊q * 100 + 1 / 2⌋ : ℤ) : ℚ) := by
      exact_mod_cast congrArg (fun z : ℤ => (z : ℚ)) (Int.toNat_of_nonneg h0)
    rw [hc]

/-- Compute `rnd2 q` from bracketing bounds on `100 q + 1/2`. -/
theorem rnd2_eq_of_bounds (q : ℚ) (k : ℤ) (h1 : (k : ℚ) ≤ q * 100 + 1 / 2)
    (h2 : q * 100 + 1 / 2 < (k : ℚ) + 1) : rnd2 q = (k : ℚ) / 100 := by
  unfold rnd2
  congr 1
  norm_cast
  rw [Int.floor_eq_iff]
  · exact ⟨h1, by exact_mod_cast h2⟩

/-- Each round of the matching loop removes the side whose balance was the
minimum: its updated balance is within `1/200 < 1/100` of zero. -/
theorem removes_one (cb db : ℚ) :
    |cb - rnd2 (min cb (-db))| < 1 / 100 ∨ |db + rnd2 (min cb (-db))| < 1 / 100 := by
  rcases le_total cb (-db) with h | h
  · left
    rw [min_eq_left h, abs_lt]
    constructor <;> nlinarith [rnd2_le cb, rnd2_ge cb]
  · right
    rw [min_eq_right h, abs_lt]
    constructor <;> nlinarith [rnd2_le (-db), rnd2_ge (-db)]

/-- The greedy matching loop (`while (creditors.length > 0 && debtors.length > 0)`),
with the running `transactions` accumulator.  The JS local
`amount = Math.round(Math.min(creditor.balance, -debtor.balance) * 100) / 100` is
written out as `rnd2 (min c.balance (-d.balance))`; a transaction is pushed when
`amount > 0`, and each side is dropped when its updated balance satisfies
`Math.abs(balance) < 0.01`. -/
def settleLoop : List Party → List Party → List Txn → List Txn
  | [], _, acc => acc
  | _ :: _, [], acc => acc
  | c :: cs, d :: ds, acc =>
    if _h1 : |c.balance - rnd2 (min c.balance (-d.balance))| < 1 / 100 then
      if _h2 : |d.balance + rnd2 (min c.balance (-d.balance))| < 1 / 100 then
        settleLoop cs ds
          (if 0 < rnd2 (min c.balance (-d.balance)) then
            acc ++ [⟨d.name, c.name, toFixed2 (rnd2 (min c.balance (-d.balance)))⟩] else acc)
      else
        settleLoop cs (⟨d.name, d.balance + rnd2 (min c.balance (-d.balance))⟩ :: ds)
          (if 0 < rnd2 (min c.balance (-d.balance)) then
            acc ++ [⟨d.name, c.name, toFixed2 (rnd2 (min c.balance (-d.balance)))⟩] else acc)
    else
      if _h2 : |d.balance + rnd2 (min c.balance (-d.balance))| < 1 / 100 then
        settleLoop (⟨c.name, c.balance - rnd2 (min c.balance (-d.balance))⟩ :: cs) ds
          (if 0 < rnd2 (min c.balance (-d.balance)) then
            acc ++ [⟨d.name, c.name, toFixed2 (rnd2 (min c.balance (-d.balance)))⟩] else acc)
      else
        settleLoop (⟨c.name, c.balance - rnd2 (min c.balance (-d.balance))⟩ :: cs)
          (⟨d.name, d.balance + rnd2 (min c.balance (-d.balance))⟩ :: ds)
          (if 0 < rnd2 (min c.balance (-d.balance)) then
            acc ++ [⟨d.name, c.name, toFixed2 (rnd2 (min c.balance (-d.balance)))⟩] else acc)
termination_by cs ds _ => cs.length + ds.length
decreasing_by
  · simp only [List.length_cons]; omega
  · simp only [List.length_cons]; omega
  · simp only [List.length_cons]; omega
  · exact absurd (removes_one c.balance d.balance)
      (by push_neg; exact ⟨le_of_not_lt _h1, le_of_not_lt _h2⟩)

/-- `calculateExpenseSplit(expenses, members)` (`none` models a `null` argument). -/
def calculateExpenseSplit (expenses : Option (List Expense)) (members : Option (List String)) :
    List Txn :=
  match expenses, members with
  | some es, some ms =>
    if es.length = 0 then []
    else if ms.length = 0 then []
    else
      let vm := validMembersOf ms
      if vm.length = 0 then []
      else settleLoop (sortCreditors (creditorsOf vm es)) (sortDebtors (debtorsOf vm es)) []
  | _, _ => []

/-- The matching loop with explicit fuel: one unit per iteration, `none` when
fuel runs out before either list is empty. -/
def settleLoopFuel : ℕ → List Party → List Party → List Txn → Option (List Txn)
  | _, [], _, acc => some acc
  | _, _ :: _, [], acc => some acc
  | 0, _ :: _, _ :: _, _ => none
  | n + 1, c :: cs, d :: ds, acc =>
    let a := rnd2 (min c.balance (-d.balance))
    let acc' := if 0 < a then acc ++ [⟨d.name, c.name, toFixed2 a⟩] else acc
    settleLoopFuel n
      (if |c.balance - a| < 1 / 100 then cs else ⟨c.name, c.balance - a⟩ :: cs)
      (if |d.balance + a| < 1 / 100 then ds else ⟨d.name, d.balance + a⟩ :: ds)
      acc'

/-- Executable variant of `calculateExpenseSplit`: the loop is run with fuel
`|creditors| + |debtors|`, which `settleLoopFuel_spec` proves sufficient.  Used
to evaluate the function on concrete inputs inside proofs. -/
def calcExec (expenses : Option (List Expense)) (members : Option (List String)) : List Txn :=
  match expenses, members with
  | some es, some ms =>
    if es.length = 0 then []
    else if ms.length = 0 then []
    else if (validMembersOf ms).length = 0 then []
    else
      (settleLoopFuel
        ((sortCreditors (creditorsOf (validMembersOf ms) es)).length +
          (sortDebtors (debtorsOf (validMembersOf ms) es)).length)
        (sortCreditors (creditorsOf (validMembersOf ms) es))
        (sortDebtors (debtorsOf (validMembersOf ms) es)) []).getD []
  | _, _ => []

/-- Sum of the (parsed) amounts of the output transactions credited to `m`. -/
def creditedTo (m : String) (ts : List Txn) : ℚ :=
  ((ts.filter (fun t => t.toName == m)).map (fun t => parseAmount t.amount)).sum

/-- Sum of the (parsed) amounts of the output transactions debited from `m`. -/
def debitedFrom (m : String) (ts : List Txn) : ℚ :=
  ((ts.filter (fun t => t.fromName == m)).map (fun t => parseAmount t.amount)).sum

/-- Number of output transactions touching `m` (as source or target). -/
def touchCount (m : String) (ts : List Txn) : ℕ :=
  (ts.filter (fun t => t.fromName == m || t.toName == m)).length

/-- The characters after the decimal point of a rendered amount string. -/
def fracChars (s : String) : List Char :=
  (s.data.dropWhile (fun c => !(c == '.'))).drop 1

theorem digitVal_digitChar {d : ℕ} (h : d < 10) : digitVal (digitChar d) = d := by
  interval_cases d <;> decide

theorem digitChar_ne_dot {d : ℕ} (h : d < 10) : digitChar d ≠ '.' := by
  interval_cases d <;> decide

theorem digitChar_isDigit {d : ℕ} (h : d < 10) : (digitChar d).isDigit = true := by
  interval_cases d <;> decide

theorem natDigitsAux_fuel_congr :
    ∀ (fuel1 fuel2 n : ℕ), n ≤ fuel1 → n ≤ fuel2 →
      natDigitsAux fuel1 n = natDigitsAux fuel2 n := by
  intro fuel1
  induction fuel1 with
  | zero =>
    intro fuel2 n h1 _
    have hn : n = 0 := Nat.le_zero.mp h1
    subst hn
    cases fuel2 with
    | zero => rfl
    | succ g => simp [natDigitsAux]
  | succ f ih =>
    intro fuel2 n h1 h2
    cases fuel2 with
    | zero =>
      have hn : n = 0 := Nat.le_zero.mp h2
      subst hn
      simp [natDigitsAux]
    | succ g =>
      rw [natDigitsAux, natDigitsAux]
      by_cases h10 : n < 10
      · rw [if_pos h10, if_pos h10]
      · rw [if_neg h10, if_neg h10,
          ih g (n / 10) (by omega) (by omega)]

theorem natDigits_eq_small {n : ℕ} (h : n < 10) : natDigits n = [digitChar n] := by
  unfold natDigits
  cases n with
  | zero => rfl
  | succ m => rw [natDigitsAux, if_pos h]

theorem natDigits_eq_big {n : ℕ} (h : ¬n < 10) :
    natDigits n = natDigits (n / 10) ++ [digitChar (n % 10)] := by
  unfold natDigits
  cases n with
  | zero => exact absurd (by omega : (0 : ℕ) < 10) h
  | succ m =>
    rw [natDigitsAux, if_neg h,
      natDigitsAux_fuel_congr m ((m + 1) / 10) ((m + 1) / 10) (by omega) (le_refl _)]

theorem natDigits_ne_dot (n : ℕ) : ∀ c ∈ natDigits n, c ≠ '.' := by
  induction n using Nat.strong_induction_on with
  | _ n ih =>
    by_cases h : n < 10
    · rw [natDigits_eq_small h]
      intro c hc
      rw [List.mem_singleton] at hc
      subst hc
      exact digitChar_ne_dot h
    · rw [natDigits_eq_big h]
      intro c hc
      rcases List.mem_append.mp hc with h1 | h1
      · exact ih (n / 10) (Nat.div_lt_self (by omega) (by omega)) c h1
      · rw [List.mem_singleton] at h1
        subst h1
        exact digitChar_ne_dot (Nat.mod_lt _ (by omega))

theorem natDigits_isDigit (n : ℕ) : ∀ c ∈ natDigits n, c.isDigit = true := by
  induction n using Nat.strong_induction_on with
  | _ n ih =>
    by_cases h : n < 10
    · rw [natDigits_eq_small h]
      intro c hc
      rw [List.mem_singleton] at hc
      subst hc
      exact digitChar_isDigit h
    · rw [natDigits_eq_big h]
      intro c hc
      rcases List.mem_append.mp hc with h1 | h1
      · exact ih (n / 10) (Nat.div_lt_self (by omega) (by omega)) c h1
      · rw [List.mem_singleton] at h1
        subst h1
        exact digitChar_isDigit (Nat.mod_lt _ (by omega))

theorem readNat_append (l : List Char) (c : Char) :
    readNat (l ++ [c]) = 10 * readNat l + digitVal c := by
  unfold readNat
  rw [List.foldl_append]
  rfl

theorem readNat_natDigits (n : ℕ) : readNat (natDigits n) = n := by
  induction n using Nat.strong_induction_on with
  | _ n ih =>
    by_cases h : n < 10
    · rw [natDigits_eq_small h]
      show 10 * 0 + digitVal (digitChar n) = n
      rw [digitVal_digitChar h]
      omega
    · rw [natDigits_eq_big h, readNat_append,
        ih (n / 10) (Nat.div_lt_self (by omega) (by omega)),
        digitVal_digitChar (Nat.mod_lt _ (by omega))]
      omega

theorem pad2_readNat (r : ℕ) : readNat (pad2 r) = r := by
  unfold pad2
  split
  · next h10 =>
    rw [natDigits_eq_small h10]
    show 10 * (10 * 0 + digitVal '0') + digitVal (digitChar r) = r
    rw [digitVal_digitChar h10]
    have h0 : digitVal '0' = 0 := by decide
    rw [h0]
    omega
  · exact readNat_natDigits r

theorem pad2_length {r : ℕ} (h : r < 100) : (pad2 r).length = 2 := by
  unfold pad2
  split
  · next h10 => rw [natDigits_eq_small h10]; rfl
  · next h10 =>
    rw [natDigits_eq_big h10, natDigits_eq_small (by omega : r / 10 < 10)]
    rfl

theorem pad2_isDigit (r : ℕ) : ∀ c ∈ pad2 r, c.isDigit = true := by
  unfold pad2
  split
  · next h10 =>
    intro c hc
    rcases List.mem_cons.mp hc with h1 | h1
    · subst h1; decide
    · exact natDigits_isDigit r c h1
  · exact natDigits_isDigit r

theorem takeWhile_append_eq {p : Char → Bool} {xs : List Char} (y : Char) (ys : List Char)
    (h : ∀ x ∈ xs, p x = true) (hy : p y = false) :
    (xs ++ y :: ys).takeWhile p = xs ∧ (xs ++ y :: ys).dropWhile p = y :: ys := by
  induction xs with
  | nil => simp [List.takeWhile_cons, List.dropWhile_cons, hy]
  | cons x xs ih =>
    have hx : p x = true := h x (List.mem_cons_self x xs)
    have hrest := ih (fun a ha => h a (List.mem_cons_of_mem x ha))
    simp [List.takeWhile_cons, List.dropWhile_cons, hx, hrest.1, hrest.2]

theorem string_mk_data (l : List Char) : (String.mk l).data = l := rfl

theorem parseAmount_centsChars (k : ℕ) : parseAmount ⟨centsChars k⟩ = (k : ℚ) / 100 := by
  have hdig : ∀ c ∈ natDigits (k / 100), (fun c => !(c == '.')) c = true := by
    intro c hc
    simpa using natDigits_ne_dot (k / 100) c hc
  have hdot : (fun c => !(c == '.')) '.' = false := by decide
  have h := takeWhile_append_eq (p := fun c => !(c == '.')) '.' (pad2 (k % 100)) hdig hdot
  unfold parseAmount
  rw [string_mk_data]
  unfold centsChars
  rw [h.1, h.2, List.drop_one, List.tail_cons, readNat_natDigits,
    pad2_readNat]
  have hn : k / 100 * 100 + k % 100 = k := by omega
  have h100 : ((k / 100 : ℕ) : ℚ) * 100 + ((k % 100 : ℕ) : ℚ) = (k : ℚ) := by
    exact_mod_cast congrArg (Nat.cast : ℕ → ℚ) hn
  field_simp
  linarith

theorem fracChars_centsChars (k : ℕ) : fracChars ⟨centsChars k⟩ = pad2 (k % 100) := by
  have hdig : ∀ c ∈ natDigits (k / 100), (fun c => !(c == '.')) c = true := by
    intro c hc
    simpa using natDigits_ne_dot (k / 100) c hc
  have hdot : (fun c => !(c == '.')) '.' = false := by decide
  have h := takeWhile_append_eq (p := fun c => !(c == '.')) '.' (pad2 (k % 100)) hdig hdot
  unfold fracChars
  rw [string_mk_data]
  unfold centsChars
  rw [h.2, List.drop_one, List.tail_cons]

theorem floor_nat_add_half (k : ℕ) : ⌊(k : ℚ) + 1 / 2⌋ = (k : ℤ) := by
  rw [Int.floor_eq_iff]
  constructor
  · push_cast; linarith
  · push_cast; linarith

/-- A whole number of cents is a fixed point of `rnd2`. -/
theorem rnd2_cents_fixed (k : ℕ) : rnd2 ((k : ℚ) / 100) = (k : ℚ) / 100 := by
  unfold rnd2
  rw [show ((k : ℚ) / 100) * 100 + 1 / 2 = (k : ℚ) + 1 / 2 from by field_simp,
    floor_nat_add_half]
  norm_num

theorem toFixed2_cents (k : ℕ) : toFixed2 ((k : ℚ) / 100) = ⟨centsChars k⟩ := by
  unfold toFixed2
  rw [if_neg (not_lt.mpr (by positivity : (0 : ℚ) ≤ (k : ℚ) / 100))]
  congr 2
  rw [show ((k : ℚ) / 100) * 100 + 1 / 2 = (k : ℚ) + 1 / 2 from by field_simp,
    floor_nat_add_half, Int.toNat_natCast]

theorem settleLoop_nil_left (ds : List Party) (acc : List Txn) : settleLoop [] ds acc = acc := by
  rw [settleLoop.eq_def]

theorem settleLoop_nil_right (cs : List Party) (acc : List Txn) : settleLoop cs [] acc = acc := by
  rw [settleLoop.eq_def]
  rcases cs with _ | ⟨c, cs⟩ <;> rfl

theorem settleLoop_cons (c d : Party) (cs ds : List Party) (acc : List Txn) :
    settleLoop (c :: cs) (d :: ds) acc =
      settleLoop
        (if |c.balance - rnd2 (min c.balance (-d.balance))| < 1 / 100 then cs
         else ⟨c.name, c.balance - rnd2 (min c.balance (-d.balance))⟩ :: cs)
        (if |d.balance + rnd2 (min c.balance (-d.balance))| < 1 / 100 then ds
         else ⟨d.name, d.balance + rnd2 (min c.balance (-d.balance))⟩ :: ds)
        (if 0 < rnd2 (min c.balance (-d.balance)) then
           acc ++ [⟨d.name, c.name, toFixed2 (rnd2 (min c.balance (-d.balance)))⟩]
         else acc) := by
  rw [settleLoop.eq_def]
  by_cases h1 : |c.balance - rnd2 (min c.balance (-d.balance))| < 1 / 100 <;>
    by_cases h2 : |d.balance + rnd2 (min c.balance (-d.balance))| < 1 / 100
  · simp only [dif_pos h1, dif_pos h2, if_pos h1, if_pos h2]
  · simp only [dif_pos h1, dif_neg h2, if_pos h1, if_neg h2]
  · simp only [dif_neg h1, dif_pos h2, if_neg h1, if_pos h2]
  · simp only [dif_neg h1, dif_neg h2, if_neg h1, if_neg h2]

theorem settleLoop_acc_aux (cs ds : List Party) (acc0 : List Txn) :
    ∀ acc, settleLoop cs ds acc = acc ++ settleLoop cs ds [] := by
  induction cs, ds, acc0 using settleLoop.induct with
  | case1 ds acc0 =>
    intro acc
    rw [settleLoop_nil_left, settleLoop_nil_left, List.append_nil]
  | case2 c cs acc0 =>
    intro acc
    rw [settleLoop_nil_right, settleLoop_nil_right, List.append_nil]
  | case3 c cs d ds acc0 h1 h2 ih =>
    intro acc
    rw [settleLoop_cons, settleLoop_cons c d cs ds []]
    rw [if_pos h1, if_pos h2]
    by_cases ha : 0 < rnd2 (min c.balance (-d.balance))
    · rw [if_pos ha, if_pos ha, ih, ih ([] ++ _)]
      simp [List.append_assoc]
    · rw [if_neg ha, if_neg ha, ih, ih []]
  | case4 c cs d ds acc0 h1 h2 ih =>
    intro acc
    rw [settleLoop_cons, settleLoop_cons c d cs ds []]
    rw [if_pos h1, if_neg h2]
    by_cases ha : 0 < rnd2 (min c.balance (-d.balance))
    · rw [if_pos ha, if_pos ha, ih, ih ([] ++ _)]
      simp [List.append_assoc]
    · rw [if_neg ha, if_neg ha, ih, ih []]
  | case5 c cs d ds acc0 h1 h2 ih =>
    intro acc
    rw [settleLoop_cons, settleLoop_cons c d cs ds []]
    rw [if_neg h1, if_pos h2]
    by_cases ha : 0 < rnd2 (min c.balance (-d.balance))
    · rw [if_pos ha, if_pos ha, ih, ih ([] ++ _)]
      simp [List.append_assoc]
    · rw [if_neg ha, if_neg ha, ih, ih []]
  | case6 c cs d ds acc0 h1 h2 ih =>
    exact absurd (removes_one c.balance d.balance)
      (by push_neg; exact ⟨le_of_not_lt h1, le_of_not_lt h2⟩)

theorem settleLoop_acc (cs ds : List Party) (acc : List Txn) :
    settleLoop cs ds acc = acc ++ settleLoop cs ds [] :=
  settleLoop_acc_aux cs ds [] acc

theorem creditedTo_nil (m : String) : creditedTo m [] = 0 := rfl

theorem creditedTo_append (m : String) (l1 l2 : List Txn) :
    creditedTo m (l1 ++ l2) = creditedTo m l1 + creditedTo m l2 := by
  unfold creditedTo
  rw [List.filter_append, List.map_append, List.sum_append]

theorem creditedTo_cons (m : String) (t : Txn) (l : List Txn) :
    creditedTo m (t :: l) =
      (if t.toName = m then parseAmount t.amount else 0) + creditedTo m l := by
  unfold creditedTo
  rw [List.filter_cons]
  by_cases h : t.toName = m <;> simp [h]

theorem creditedTo_eq_zero {m : String} {l : List Txn} (h : ∀ t ∈ l, t.toName ≠ m) :
    creditedTo m l = 0 := by
  induction l with
  | nil => rfl
  | cons t l ih =>
    rw [creditedTo_cons, if_neg (h t (List.mem_cons_self t l)),
      ih fun x hx => h x (List.mem_cons_of_mem t hx)]
    ring

theorem debitedFrom_nil (m : String) : debitedFrom m [] = 0 := rfl

theorem debitedFrom_append (m : String) (l1 l2 : List Txn) :
    debitedFrom m (l1 ++ l2) = debitedFrom m l1 + debitedFrom m l2 := by
  unfold debitedFrom
  rw [List.filter_append, List.map_append, List.sum_append]

theorem debitedFrom_cons (m : String) (t : Txn) (l : List Txn) :
    debitedFrom m (t :: l) =
      (if t.fromName = m then parseAmount t.amount else 0) + debitedFrom m l := by
  unfold debitedFrom
  rw [List.filter_cons]
  by_cases h : t.fromName = m <;> simp [h]

theorem debitedFrom_eq_zero {m : String} {l : List Txn} (h : ∀ t ∈ l, t.fromName ≠ m) :
    debitedFrom m l = 0 := by
  induction l with
  | nil => rfl
  | cons t l ih =>
    rw [debitedFrom_cons, if_neg (h t (List.mem_cons_self t l)),
      ih fun x hx => h x (List.mem_cons_of_mem t hx)]
    ring

theorem head_amount_nonneg {c d : Party} (hc : 0 < c.balance) (hd : d.balance < 0) :
    0 ≤ rnd2 (min c.balance (-d.balance)) :=
  rnd2_nonneg (le_min hc.le (by linarith))

theorem head_amount_le_c (c d : Party) :
    rnd2 (min c.balance (-d.balance)) ≤ c.balance + 1 / 200 := by
  have h := rnd2_le (min c.balance (-d.balance))
  have h2 := min_le_left c.balance (-d.balance)
  linarith

theorem head_amount_le_d (c d : Party) :
    rnd2 (min c.balance (-d.balance)) ≤ -d.balance + 1 / 200 := by
  have h := rnd2_le (min c.balance (-d.balance))
  have h2 := min_le_right c.balance (-d.balance)
  linarith

/-- A creditor that survives its round still has a balance of at least `1/100`. -/
theorem kept_creditor_pos {c d : Party}
    (h1 : ¬|c.balance - rnd2 (min c.balance (-d.balance))| < 1 / 100) :
    1 / 100 ≤ c.balance - rnd2 (min c.balance (-d.balance)) := by
  have habs := le_of_not_lt h1
  have hub := head_amount_le_c c d
  rcases abs_cases (c.balance - rnd2 (min c.balance (-d.balance))) with ⟨he, _⟩ | ⟨he, _⟩ <;>
    linarith

/-- A debtor that survives its round still has a balance of at most `-1/100`. -/
theorem kept_debtor_neg {c d : Party}
    (h2 : ¬|d.balance + rnd2 (min c.balance (-d.balance))| < 1 / 100) :
    d.balance + rnd2 (min c.balance (-d.balance)) ≤ -(1 / 100) := by
  have habs := le_of_not_lt h2
  have hub := head_amount_le_d c d
  rcases abs_cases (d.balance + rnd2 (min c.balance (-d.balance))) with ⟨he, _⟩ | ⟨he, _⟩ <;>
    linarith

theorem parseAmount_toFixed2_rnd2 {q : ℚ} (h : 0 < rnd2 q) :
    parseAmount (toFixed2 (rnd2 q)) = rnd2 q := by
  obtain ⟨k, _, he⟩ := rnd2_pos_cents h
  rw [he, toFixed2_cents, parseAmount_centsChars]

/-- Every emitted transaction is directed from a current debtor to a current
creditor. -/
theorem settle_names (cs ds : List Party) (acc0 : List Txn) :
    ∀ t ∈ settleLoop cs ds [],
      t.toName ∈ cs.map Party.name ∧ t.fromName ∈ ds.map Party.name := by
  induction cs, ds, acc0 using settleLoop.induct with
  | case1 ds acc0 => rw [settleLoop_nil_left]; intro t ht; exact absurd ht (List.not_mem_nil t)
  | case2 c cs acc0 => rw [settleLoop_nil_right]; intro t ht; exact absurd ht (List.not_mem_nil t)
  | case3 c cs d ds acc0 h1 h2 ih =>
    rw [settleLoop_cons, if_pos h1, if_pos h2, settleLoop_acc]
    intro t ht
    rcases List.mem_append.mp ht with he | hr
    · by_cases ha : 0 < rnd2 (min c.balance (-d.balance))
      · rw [if_pos ha] at he
        simp only [List.nil_append, List.mem_singleton] at he
        subst he
        exact ⟨List.mem_cons_self _ _, List.mem_cons_self _ _⟩
      · rw [if_neg ha] at he
        exact absurd he (List.not_mem_nil t)
    · obtain ⟨hto, hfrom⟩ := ih t hr
      exact ⟨List.mem_cons_of_mem _ hto, List.mem_cons_of_mem _ hfrom⟩
  | case4 c cs d ds acc0 h1 h2 ih =>
    rw [settleLoop_cons, if_pos h1, if_neg h2, settleLoop_acc]
    intro t ht
    rcases List.mem_append.mp ht with he | hr
    · by_cases ha : 0 < rnd2 (min c.balance (-d.balance))
      · rw [if_pos ha] at he
        simp only [List.nil_append, List.mem_singleton] at he
        subst he
        exact ⟨List.mem_cons_self _ _, List.mem_cons_self _ _⟩
      · rw [if_neg ha] at he
        exact absurd he (List.not_mem_nil t)
    · obtain ⟨hto, hfrom⟩ := ih t hr
      exact ⟨List.mem_cons_of_mem _ hto, hfrom⟩
  | case5 c cs d ds acc0 h1 h2 ih =>
    rw [settleLoop_cons, if_neg h1, if_pos h2, settleLoop_acc]
    intro t ht
    rcases List.mem_append.mp ht with he | hr
    · by_cases ha : 0 < rnd2 (min c.balance (-d.balance))
      · rw [if_pos ha] at he
        simp only [List.nil_append, List.mem_singleton] at he
        subst he
        exact ⟨List.mem_cons_self _ _, List.mem_cons_self _ _⟩
      · rw [if_neg ha] at he
        exact absurd he (List.not_mem_nil t)
    · obtain ⟨hto, hfrom⟩ := ih t hr
      exact ⟨hto, List.mem_cons_of_mem _ hfrom⟩
  | case6 c cs d ds acc0 h1 h2 ih =>
    exact absurd (removes_one c.balance d.balance)
      (by push_neg; exact ⟨le_of_not_lt h1, le_of_not_lt h2⟩)

/-- Per-creditor conservation through the matching loop: the amounts credited
to a creditor differ from its entering balance by less than the current
imbalance `|σ|` plus `1/100` per remaining list entry (each removal may drop a
residual below the `0.01` tolerance). -/
theorem settle_credit (cs ds : List Party) (acc0 : List Txn) :
    ∀ (p : Party) (σ : ℚ),
      (cs.map Party.name).Nodup →
      (∀ x ∈ cs, 0 < x.balance) →
      (∀ x ∈ ds, x.balance < 0) →
      p ∈ cs →
      (cs.map Party.balance).sum + (ds.map Party.balance).sum = σ →
      |creditedTo p.name (settleLoop cs ds []) - p.balance| <
        |σ| + (cs.length + ds.length) * (1 / 100) := by
  induction cs, ds, acc0 using settleLoop.induct with
  | case1 ds acc0 =>
    intro p σ _ _ _ hp _
    exact absurd hp (List.not_mem_nil p)
  | case2 c cs acc0 =>
    intro p σ _ hpos _ hp hσ
    rw [settleLoop_nil_right, creditedTo_nil, zero_sub, abs_neg, abs_of_pos (hpos p hp)]
    have hble : p.balance ≤ ((c :: cs).map Party.balance).sum := by
      apply List.single_le_sum
      · intro x hx
        obtain ⟨y, hy, rfl⟩ := List.mem_map.mp hx
        exact (hpos y hy).le
      · exact List.mem_map_of_mem Party.balance hp
    have hσ' : ((c :: cs).map Party.balance).sum = σ := by simpa using hσ
    have hs1 := le_abs_self σ
    have hl1 : (0 : ℚ) ≤ (cs.length : ℚ) := Nat.cast_nonneg _
    push_cast [List.length_cons, List.length_nil]
    linarith
  | case3 c cs d ds acc0 h1 h2 ih =>
    intro p σ hnd hpos hneg hp hσ
    have hc : 0 < c.balance := hpos c (List.mem_cons_self c cs)
    have hd : d.balance < 0 := hneg d (List.mem_cons_self d ds)
    have hndc : c.name ∉ cs.map Party.name := (List.nodup_cons.mp hnd).1
    have hndcs : (cs.map Party.name).Nodup := (List.nodup_cons.mp hnd).2
    have hA0 := head_amount_nonneg hc hd
    have hparse := fun h : 0 < rnd2 (min c.balance (-d.balance)) =>
      parseAmount_toFixed2_rnd2 h
    rw [settleLoop_cons, if_pos h1, if_pos h2, settleLoop_acc, creditedTo_append]
    rw [List.map_cons, List.sum_cons, List.map_cons, List.sum_cons] at hσ
    rw [abs_lt] at h1 h2
    generalize hA : rnd2 (min c.balance (-d.balance)) = A at h1 h2 hA0 hparse ⊢
    have hσ' : (cs.map Party.balance).sum + (ds.map Party.balance).sum =
        σ - c.balance - d.balance := by linarith
    have hs0 := abs_nonneg σ
    have hs1 := le_abs_self σ
    have hs2 := neg_abs_le σ
    have habs : |σ - c.balance - d.balance| < |σ| + 1 / 100 + 1 / 100 := by
      rw [abs_lt]
      constructor <;> linarith
    have hl1 : (0 : ℚ) ≤ (cs.length : ℚ) := Nat.cast_nonneg _
    have hl2 : (0 : ℚ) ≤ (ds.length : ℚ) := Nat.cast_nonneg _
    rcases List.mem_cons.mp hp with hpc | hptail
    · subst hpc
      have hrzero : creditedTo p.name (settleLoop cs ds []) = 0 := by
        apply creditedTo_eq_zero
        intro t ht hteq
        exact hndc (hteq ▸ (settle_names cs ds [] t ht).1)
      rw [hrzero]
      by_cases ha : 0 < A
      · rw [if_pos ha, List.nil_append, creditedTo_cons, creditedTo_nil, if_pos rfl, hparse ha]
        rw [abs_lt]
        push_cast [List.length_cons]
        constructor <;> linarith
      · rw [if_neg ha, creditedTo_nil]
        have hA0' : A = 0 := le_antisymm (not_lt.mp ha) hA0
        rw [abs_lt]
        push_cast [List.length_cons]
        constructor <;> linarith
    · have hpname : p.name ∈ cs.map Party.name := List.mem_map_of_mem Party.name hptail
      have hne : c.name ≠ p.name := fun he => hndc (he ▸ hpname)
      have hEz : creditedTo p.name
          (if 0 < A then [] ++ [⟨d.name, c.name, toFixed2 A⟩] else []) = 0 := by
        by_cases ha : 0 < A
        · rw [if_pos ha, List.nil_append, creditedTo_cons, creditedTo_nil, if_neg hne]
          ring
        · rw [if_neg ha, creditedTo_nil]
      rw [hEz, zero_add]
      have G := ih p (σ - c.balance - d.balance) hndcs
        (fun x hx => hpos x (List.mem_cons_of_mem c hx))
        (fun x hx => hneg x (List.mem_cons_of_mem d hx)) hptail hσ'
      rw [abs_lt] at G ⊢
      push_cast [List.length_cons] at G ⊢
      constructor <;> linarith
  | case4 c cs d ds acc0 h1 h2 ih =>
    intro p σ hnd hpos hneg hp hσ
    have hc : 0 < c.balance := hpos c (List.mem_cons_self c cs)
    have hd : d.balance < 0 := hneg d (List.mem_cons_self d ds)
    have hndc : c.name ∉ cs.map Party.name := (List.nodup_cons.mp hnd).1
    have hndcs : (cs.map Party.name).Nodup := (List.nodup_cons.mp hnd).2
    have hA0 := head_amount_nonneg hc hd
    have hkd := kept_debtor_neg h2
    have hparse := fun h : 0 < rnd2 (min c.balance (-d.balance)) =>
      parseAmount_toFixed2_rnd2 h
    rw [settleLoop_cons, if_pos h1, if_neg h2, settleLoop_acc, creditedTo_append]
    rw [List.map_cons, List.sum_cons, List.map_cons, List.sum_cons] at hσ
    rw [abs_lt] at h1
    generalize hA : rnd2 (min c.balance (-d.balance)) = A at h1 hA0 hkd hparse ih ⊢
    have hσ' : (cs.map Party.balance).sum +
        (((⟨d.name, d.balance + A⟩ : Party) :: ds).map Party.balance).sum =
        σ - (c.balance - A) := by
      rw [List.map_cons, List.sum_cons]
      show (cs.map Party.balance).sum + (d.balance + A + (ds.map Party.balance).sum) = _
      linarith
    have hs0 := abs_nonneg σ
    have hs1 := le_abs_self σ
    have hs2 := neg_abs_le σ
    have habs : |σ - (c.balance - A)| < |σ| + 1 / 100 := by
      rw [abs_lt]
      constructor <;> linarith
    have hl1 : (0 : ℚ) ≤ (cs.length : ℚ) := Nat.cast_nonneg _
    have hl2 : (0 : ℚ) ≤ (ds.length : ℚ) := Nat.cast_nonneg _
    rcases List.mem_cons.mp hp with hpc | hptail
    · subst hpc
      have hrzero : creditedTo p.name
          (settleLoop cs ((⟨d.name, d.balance + A⟩ : Party) :: ds) []) = 0 := by
        apply creditedTo_eq_zero
        intro t ht hteq
        exact hndc (hteq ▸ (settle_names cs _ [] t ht).1)
      rw [hrzero]
      by_cases ha : 0 < A
      · rw [if_pos ha, List.nil_append, creditedTo_cons, creditedTo_nil, if_pos rfl, hparse ha]
        rw [abs_lt]
        push_cast [List.length_cons]
        constructor <;> linarith
      · rw [if_neg ha, creditedTo_nil]
        have hA0' : A = 0 := le_antisymm (not_lt.mp ha) hA0
        rw [abs_lt]
        push_cast [List.length_cons]
        constructor <;> linarith
    · have hpname : p.name ∈ cs.map Party.name := List.mem_map_of_mem Party.name hptail
      have hne : c.name ≠ p.name := fun he => hndc (he ▸ hpname)
      have hEz : creditedTo p.name
          (if 0 < A then [] ++ [⟨d.name, c.name, toFixed2 A⟩] else []) = 0 := by
        by_cases ha : 0 < A
        · rw [if_pos ha, List.nil_append, creditedTo_cons, creditedTo_nil, if_neg hne]
          ring
        · rw [if_neg ha, creditedTo_nil]
      rw [hEz, zero_add]
      have G := ih p (σ - (c.balance - A)) hndcs
        (fun x hx => hpos x (List.mem_cons_of_mem c hx))
        (fun x hx => by
          rcases List.mem_cons.mp hx with hxd | hxds
          · subst hxd
            show d.balance + A < 0
            linarith
          · exact hneg x (List.mem_cons_of_mem d hxds))
        hptail hσ'
      rw [abs_lt] at G ⊢
      push_cast [List.length_cons] at G ⊢
      constructor <;> linarith
  | case5 c cs d ds acc0 h1 h2 ih =>
    intro p σ hnd hpos hneg hp hσ
    have hc : 0 < c.balance := hpos c (List.mem_cons_self c cs)
    have hd : d.balance < 0 := hneg d (List.mem_cons_self d ds)
    have hndc : c.name ∉ cs.map Party.name := (List.nodup_cons.mp hnd).1
    have hndcs : (cs.map Party.name).Nodup := (List.nodup_cons.mp hnd).2
    have hA0 := head_amount_nonneg hc hd
    have hkc := kept_creditor_pos h1
    have hparse := fun h : 0 < rnd2 (min c.balance (-d.balance)) =>
      parseAmount_toFixed2_rnd2 h
    rw [settleLoop_cons, if_neg h1, if_pos h2, settleLoop_acc, creditedTo_append]
    rw [List.map_cons, List.sum_cons, List.map_cons, List.sum_cons] at hσ
    rw [abs_lt] at h2
    generalize hA : rnd2 (min c.balance (-d.balance)) = A at h2 hA0 hkc hparse ih ⊢
    have hnd' : ((((⟨c.name, c.balance - A⟩ : Party) :: cs)).map Party.name).Nodup := by
      rw [List.map_cons]
      exact List.nodup_cons.mpr ⟨hndc, hndcs⟩
    have hpos' : ∀ x ∈ ((⟨c.name, c.balance - A⟩ : Party) :: cs), 0 < x.balance := by
      intro x hx
      rcases List.mem_cons.mp hx with hxc | hxcs
      · subst hxc
        show (0 : ℚ) < c.balance - A
        linarith
      · exact hpos x (List.mem_cons_of_mem c hxcs)
    have hσ' : ((((⟨c.name, c.balance - A⟩ : Party) :: cs)).map Party.balance).sum +
        (ds.map Party.balance).sum = σ - (d.balance + A) := by
      rw [List.map_cons, List.sum_cons]
      show c.balance - A + (cs.map Party.balance).sum + _ = _
      linarith
    have hs0 := abs_nonneg σ
    have hs1 := le_abs_self σ
    have hs2 := neg_abs_le σ
    have habs : |σ - (d.balance + A)| < |σ| + 1 / 100 := by
      rw [abs_lt]
      constructor <;> linarith
    have hl1 : (0 : ℚ) ≤ (cs.length : ℚ) := Nat.cast_nonneg _
    have hl2 : (0 : ℚ) ≤ (ds.length : ℚ) := Nat.cast_nonneg _
    rcases List.mem_cons.mp hp with hpc | hptail
    · subst hpc
      have G := ih ⟨p.name, p.balance - A⟩ (σ - (d.balance + A)) hnd' hpos'
        (fun x hx => hneg x (List.mem_cons_of_mem d hx))
        (List.mem_cons_self _ _) hσ'
      simp only at G
      by_cases ha : 0 < A
      · rw [if_pos ha, List.nil_append, creditedTo_cons, creditedTo_nil, if_pos rfl, hparse ha]
        rw [abs_lt] at G ⊢
        push_cast [List.length_cons] at G ⊢
        constructor <;> linarith
      · rw [if_neg ha, creditedTo_nil]
        have hA0' : A = 0 := le_antisymm (not_lt.mp ha) hA0
        rw [abs_lt] at G ⊢
        push_cast [List.length_cons] at G ⊢
        constructor <;> linarith
    · have hpname : p.name ∈ cs.map Party.name := List.mem_map_of_mem Party.name hptail
      have hne : c.name ≠ p.name := fun he => hndc (he ▸ hpname)
      have hEz : creditedTo p.name
          (if 0 < A then [] ++ [⟨d.name, c.name, toFixed2 A⟩] else []) = 0 := by
        by_cases ha : 0 < A
        · rw [if_pos ha, List.nil_append, creditedTo_cons, creditedTo_nil, if_neg hne]
          ring
        · rw [if_neg ha, creditedTo_nil]
      rw [hEz, zero_add]
      have G := ih p (σ - (d.balance + A)) hnd' hpos'
        (fun x hx => hneg x (List.mem_cons_of_mem d hx))
        (List.mem_cons_of_mem _ hptail) hσ'
      rw [abs_lt] at G ⊢
      push_cast [List.length_cons] at G ⊢
      constructor <;> linarith
  | case6 c cs d ds acc0 h1 h2 ih =>
    exact absurd (removes_one c.balance d.balance)
      (by push_neg; exact ⟨le_of_not_lt h1, le_of_not_lt h2⟩)

theorem sum_map_neg_balance (l : List Party) :
    (l.map (fun x => -x.balance)).sum = -((l.map Party.balance).sum) := by
  induction l with
  | nil => simp
  | cons a l ih =>
    simp only [List.map_cons, List.sum_cons, ih]
    ring

theorem sum_balance_le {ds : List Party} (hneg : ∀ x ∈ ds, x.balance < 0) (p : Party)
    (hp : p ∈ ds) : (ds.map Party.balance).sum ≤ p.balance := by
  have h := List.single_le_sum (l := ds.map (fun x => -x.balance))
    (fun x hx => by
      obtain ⟨y, hy, rfl⟩ := List.mem_map.mp hx
      have := hneg y hy
      linarith)
    (-p.balance) (List.mem_map_of_mem (fun x => -x.balance) hp)
  rw [sum_map_neg_balance] at h
  linarith

/-- Per-debtor conservation through the matching loop (mirror of
`settle_credit`): the amounts debited from a debtor add up to the negation of
its entering (negative) balance, within the same bound. -/
theorem settle_debit (cs ds : List Party) (acc0 : List Txn) :
    ∀ (p : Party) (σ : ℚ),
      (ds.map Party.name).Nodup →
      (∀ x ∈ cs, 0 < x.balance) →
      (∀ x ∈ ds, x.balance < 0) →
      p ∈ ds →
      (cs.map Party.balance).sum + (ds.map Party.balance).sum = σ →
      |debitedFrom p.name (settleLoop cs ds []) - (-p.balance)| <
        |σ| + (cs.length + ds.length) * (1 / 100) := by
  induction cs, ds, acc0 using settleLoop.induct with
  | case1 ds acc0 =>
    intro p σ _ _ hneg hp hσ
    rw [settleLoop_nil_left, debitedFrom_nil, zero_sub, neg_neg, abs_of_neg (hneg p hp)]
    have hble : (ds.map Party.balance).sum ≤ p.balance := sum_balance_le hneg p hp
    have hσ' : (ds.map Party.balance).sum = σ := by simpa using hσ
    have hs2 := neg_abs_le σ
    have hlen : 1 ≤ ds.length := List.length_pos.mpr (List.ne_nil_of_mem hp)
    have hlen' : (1 : ℚ) ≤ (ds.length : ℚ) := by exact_mod_cast hlen
    push_cast [List.length_nil]
    linarith
  | case2 c cs acc0 =>
    intro p σ _ _ _ hp _
    exact absurd hp (List.not_mem_nil p)
  | case3 c cs d ds acc0 h1 h2 ih =>
    intro p σ hnd hpos hneg hp hσ
    have hc : 0 < c.balance := hpos c (List.mem_cons_self c cs)
    have hd : d.balance < 0 := hneg d (List.mem_cons_self d ds)
    have hndd : d.name ∉ ds.map Party.name := (List.nodup_cons.mp hnd).1
    have hndds : (ds.map Party.name).Nodup := (List.nodup_cons.mp hnd).2
    have hA0 := head_amount_nonneg hc hd
    have hparse := fun h : 0 < rnd2 (min c.balance (-d.balance)) =>
      parseAmount_toFixed2_rnd2 h
    rw [settleLoop_cons, if_pos h1, if_pos h2, settleLoop_acc, debitedFrom_append]
    rw [List.map_cons, List.sum_cons, List.map_cons, List.sum_cons] at hσ
    rw [abs_lt] at h1 h2
    generalize hA : rnd2 (min c.balance (-d.balance)) = A at h1 h2 hA0 hparse ⊢
    have hσ' : (cs.map Party.balance).sum + (ds.map Party.balance).sum =
        σ - c.balance - d.balance := by linarith
    have hs0 := abs_nonneg σ
    have hs1 := le_abs_self σ
    have hs2 := neg_abs_le σ
    have habs : |σ - c.balance - d.balance| < |σ| + 1 / 100 + 1 / 100 := by
      rw [abs_lt]
      constructor <;> linarith
    have hl1 : (0 : ℚ) ≤ (cs.length : ℚ) := Nat.cast_nonneg _
    have hl2 : (0 : ℚ) ≤ (ds.length : ℚ) := Nat.cast_nonneg _
    rcases List.mem_cons.mp hp with hpd | hptail
    · subst hpd
      have hrzero : debitedFrom p.name (settleLoop cs ds []) = 0 := by
        apply debitedFrom_eq_zero
        intro t ht hteq
        exact hndd (hteq ▸ (settle_names cs ds [] t ht).2)
      rw [hrzero]
      by_cases ha : 0 < A
      · rw [if_pos ha, List.nil_append, debitedFrom_cons, debitedFrom_nil, if_pos rfl, hparse ha]
        rw [abs_lt]
        push_cast [List.length_cons]
        constructor <;> linarith
      · rw [if_neg ha, debitedFrom_nil]
        have hA0' : A = 0 := le_antisymm (not_lt.mp ha) hA0
        rw [abs_lt]
        push_cast [List.length_cons]
        constructor <;> linarith
    · have hpname : p.name ∈ ds.map Party.name := List.mem_map_of_mem Party.name hptail
      have hne : d.name ≠ p.name := fun he => hndd (he ▸ hpname)
      have hEz : debitedFrom p.name
          (if 0 < A then [] ++ [⟨d.name, c.name, toFixed2 A⟩] else []) = 0 := by
        by_cases ha : 0 < A
        · rw [if_pos ha, List.nil_append, debitedFrom_cons, debitedFrom_nil, if_neg hne]
          ring
        · rw [if_neg ha, debitedFrom_nil]
      rw [hEz, zero_add]
      have G := ih p (σ - c.balance - d.balance) hndds
        (fun x hx => hpos x (List.mem_cons_of_mem c hx))
        (fun x hx => hneg x (List.mem_cons_of_mem d hx)) hptail hσ'
      rw [abs_lt] at G ⊢
      push_cast [List.length_cons] at G ⊢
      constructor <;> linarith
  | case4 c cs d ds acc0 h1 h2 ih =>
    intro p σ hnd hpos hneg hp hσ
    have hc : 0 < c.balance := hpos c (List.mem_cons_self c cs)
    have hd : d.balance < 0 := hneg d (List.mem_cons_self d ds)
    have hndd : d.name ∉ ds.map Party.name := (List.nodup_cons.mp hnd).1
    have hndds : (ds.map Party.name).Nodup := (List.nodup_cons.mp hnd).2
    have hA0 := head_amount_nonneg hc hd
    have hkd := kept_debtor_neg h2
    have hparse := fun h : 0 < rnd2 (min c.balance (-d.balance)) =>
      parseAmount_toFixed2_rnd2 h
    rw [settleLoop_cons, if_pos h1, if_neg h2, settleLoop_acc, debitedFrom_append]
    rw [List.map_cons, List.sum_cons, List.map_cons, List.sum_cons] at hσ
    rw [abs_lt] at h1
    generalize hA : rnd2 (min c.balance (-d.balance)) = A at h1 hA0 hkd hparse ih ⊢
    have hnd' : ((((⟨d.name, d.balance + A⟩ : Party) :: ds)).map Party.name).Nodup := by
      rw [List.map_cons]
      exact List.nodup_cons.mpr ⟨hndd, hndds⟩
    have hneg' : ∀ x ∈ ((⟨d.name, d.balance + A⟩ : Party) :: ds), x.balance < 0 := by
      intro x hx
      rcases List.mem_cons.mp hx with hxd | hxds
      · subst hxd
        show d.balance + A < 0
        linarith
      · exact hneg x (List.mem_cons_of_mem d hxds)
    have hσ' : (cs.map Party.balance).sum +
        (((⟨d.name, d.balance + A⟩ : Party) :: ds).map Party.balance).sum =
        σ - (c.balance - A) := by
      rw [List.map_cons, List.sum_cons]
      show (cs.map Party.balance).sum + (d.balance + A + (ds.map Party.balance).sum) = _
      linarith
    have hs0 := abs_nonneg σ
    have hs1 := le_abs_self σ
    have hs2 := neg_abs_le σ
    have habs : |σ - (c.balance - A)| < |σ| + 1 / 100 := by
      rw [abs_lt]
      constructor <;> linarith
    have hl1 : (0 : ℚ) ≤ (cs.length : ℚ) := Nat.cast_nonneg _
    have hl2 : (0 : ℚ) ≤ (ds.length : ℚ) := Nat.cast_nonneg _
    rcases List.mem_cons.mp hp with hpd | hptail
    · subst hpd
      have G := ih ⟨p.name, p.balance + A⟩ (σ - (c.balance - A)) hnd'
        (fun x hx => hpos x (List.mem_cons_of_mem c hx)) hneg'
        (List.mem_cons_self _ _) hσ'
      simp only at G
      by_cases ha : 0 < A
      · rw [if_pos ha, List.nil_append, debitedFrom_cons, debitedFrom_nil, if_pos rfl, hparse ha]
        rw [abs_lt] at G ⊢
        push_cast [List.length_cons] at G ⊢
        constructor <;> linarith
      · rw [if_neg ha, debitedFrom_nil]
        have hA0' : A = 0 := le_antisymm (not_lt.mp ha) hA0
        rw [abs_lt] at G ⊢
        push_cast [List.length_cons] at G ⊢
        constructor <;> linarith
    · have hpname : p.name ∈ ds.map Party.name := List.mem_map_of_mem Party.name hptail
      have hne : d.name ≠ p.name := fun he => hndd (he ▸ hpname)
      have hEz : debitedFrom p.name
          (if 0 < A then [] ++ [⟨d.name, c.name, toFixed2 A⟩] else []) = 0 := by
        by_cases ha : 0 < A
        · rw [if_pos ha, List.nil_append, debitedFrom_cons, debitedFrom_nil, if_neg hne]
          ring
        · rw [if_neg ha, debitedFrom_nil]
      rw [hEz, zero_add]
      have G := ih p (σ - (c.balance - A)) hnd'
        (fun x hx => hpos x (List.mem_cons_of_mem c hx)) hneg'
        (List.mem_cons_of_mem _ hptail) hσ'
      rw [abs_lt] at G ⊢
      push_cast [List.length_cons] at G ⊢
      constructor <;> linarith
  | case5 c cs d ds acc0 h1 h2 ih =>
    intro p σ hnd hpos hneg hp hσ
    have hc : 0 < c.balance := hpos c (List.mem_cons_self c cs)
    have hd : d.balance < 0 := hneg d (List.mem_cons_self d ds)
    have hndd : d.name ∉ ds.map Party.name := (List.nodup_cons.mp hnd).1
    have hndds : (ds.map Party.name).Nodup := (List.nodup_cons.mp hnd).2
    have hA0 := head_amount_nonneg hc hd
    have hkc := kept_creditor_pos h1
    have hparse := fun h : 0 < rnd2 (min c.balance (-d.balance)) =>
      parseAmount_toFixed2_rnd2 h
    rw [settleLoop_cons, if_neg h1, if_pos h2, settleLoop_acc, debitedFrom_append]
    rw [List.map_cons, List.sum_cons, List.map_cons, List.sum_cons] at hσ
    rw [abs_lt] at h2
    generalize hA : rnd2 (min c.balance (-d.balance)) = A at h2 hA0 hkc hparse ih ⊢
    have hpos' : ∀ x ∈ ((⟨c.name, c.balance - A⟩ : Party) :: cs), 0 < x.balance := by
      intro x hx
      rcases List.mem_cons.mp hx with hxc | hxcs
      · subst hxc
        show (0 : ℚ) < c.balance - A
        linarith
      · exact hpos x (List.mem_cons_of_mem c hxcs)
    have hσ' : ((((⟨c.name, c.balance - A⟩ : Party) :: cs)).map Party.balance).sum +
        (ds.map Party.balance).sum = σ - (d.balance + A) := by
      rw [List.map_cons, List.sum_cons]
      show c.balance - A + (cs.map Party.balance).sum + _ = _
      linarith
    have hs0 := abs_nonneg σ
    have hs1 := le_abs_self σ
    have hs2 := neg_abs_le σ
    have habs : |σ - (d.balance + A)| < |σ| + 1 / 100 := by
      rw [abs_lt]
      constructor <;> linarith
    have hl1 : (0 : ℚ) ≤ (cs.length : ℚ) := Nat.cast_nonneg _
    have hl2 : (0 : ℚ) ≤ (ds.length : ℚ) := Nat.cast_nonneg _
    rcases List.mem_cons.mp hp with hpd | hptail
    · subst hpd
      have hrzero : debitedFrom p.name
          (settleLoop ((⟨c.name, c.balance - A⟩ : Party) :: cs) ds []) = 0 := by
        apply debitedFrom_eq_zero
        intro t ht hteq
        exact hndd (hteq ▸ (settle_names _ ds [] t ht).2)
      rw [hrzero]
      by_cases ha : 0 < A
      · rw [if_pos ha, List.nil_append, debitedFrom_cons, debitedFrom_nil, if_pos rfl, hparse ha]
        rw [abs_lt]
        push_cast [List.length_cons]
        constructor <;> linarith
      · rw [if_neg ha, debitedFrom_nil]
        have hA0' : A = 0 := le_antisymm (not_lt.mp ha) hA0
        rw [abs_lt]
        push_cast [List.length_cons]
        constructor <;> linarith
    · have hpname : p.name ∈ ds.map Party.name := List.mem_map_of_mem Party.name hptail
      have hne : d.name ≠ p.name := fun he => hndd (he ▸ hpname)
      have hEz : debitedFrom p.name
          (if 0 < A then [] ++ [⟨d.name, c.name, toFixed2 A⟩] else []) = 0 := by
        by_cases ha : 0 < A
        · rw [if_pos ha, List.nil_append, debitedFrom_cons, debitedFrom_nil, if_neg hne]
          ring
        · rw [if_neg ha, debitedFrom_nil]
      rw [hEz, zero_add]
      have G := ih p (σ - (d.balance + A)) hndds hpos'
        (fun x hx => hneg x (List.mem_cons_of_mem d hx)) hptail hσ'
      rw [abs_lt] at G ⊢
      push_cast [List.length_cons] at G ⊢
      constructor <;> linarith
  | case6 c cs d ds acc0 h1 h2 ih =>
    exact absurd (removes_one c.balance d.balance)
      (by push_neg; exact ⟨le_of_not_lt h1, le_of_not_lt h2⟩)

/-- Each round of the loop emits at most one transaction and removes at least
one list entry, so when both lists are nonempty the loop emits at most
`|creditors| + |debtors| - 1` transactions. -/
theorem settle_len (cs ds : List Party) (acc0 : List Txn) :
    cs = [] ∨ ds = [] ∨ (settleLoop cs ds []).length + 1 ≤ cs.length + ds.length := by
  induction cs, ds, acc0 using settleLoop.induct with
  | case1 ds acc0 => exact Or.inl rfl
  | case2 c cs acc0 => exact Or.inr (Or.inl rfl)
  | case3 c cs d ds acc0 h1 h2 ih =>
    right; right
    rw [settleLoop_cons, if_pos h1, if_pos h2, settleLoop_acc, List.length_append]
    have hrec : (settleLoop cs ds []).length + 1 ≤ cs.length + ds.length ∨
        (settleLoop cs ds []).length = 0 := by
      rcases ih with h | h | h
      · subst h; rw [settleLoop_nil_left]; right; rfl
      · subst h; rw [settleLoop_nil_right]; right; rfl
      · left; exact h
    have hemit : (if 0 < rnd2 (min c.balance (-d.balance)) then
        ([] : List Txn) ++ [⟨d.name, c.name, toFixed2 (rnd2 (min c.balance (-d.balance)))⟩]
        else []).length ≤ 1 := by
      by_cases ha : 0 < rnd2 (min c.balance (-d.balance)) <;> simp [ha]
    simp only [List.length_cons]
    omega
  | case4 c cs d ds acc0 h1 h2 ih =>
    right; right
    rw [settleLoop_cons, if_pos h1, if_neg h2, settleLoop_acc, List.length_append]
    have hrec : (settleLoop cs ((⟨d.name, d.balance + rnd2 (min c.balance (-d.balance))⟩ :
          Party) :: ds) []).length + 1 ≤ cs.length + (ds.length + 1) ∨
        (settleLoop cs ((⟨d.name, d.balance + rnd2 (min c.balance (-d.balance))⟩ :
          Party) :: ds) []).length = 0 := by
      rcases ih with h | h | h
      · subst h; rw [settleLoop_nil_left]; right; rfl
      · exact absurd h (List.cons_ne_nil _ _)
      · left; simpa using h
    have hemit : (if 0 < rnd2 (min c.balance (-d.balance)) then
        ([] : List Txn) ++ [⟨d.name, c.name, toFixed2 (rnd2 (min c.balance (-d.balance)))⟩]
        else []).length ≤ 1 := by
      by_cases ha : 0 < rnd2 (min c.balance (-d.balance)) <;> simp [ha]
    simp only [List.length_cons]
    omega
  | case5 c cs d ds acc0 h1 h2 ih =>
    right; right
    rw [settleLoop_cons, if_neg h1, if_pos h2, settleLoop_acc, List.length_append]
    have hrec : (settleLoop ((⟨c.name, c.balance - rnd2 (min c.balance (-d.balance))⟩ :
          Party) :: cs) ds []).length + 1 ≤ (cs.length + 1) + ds.length ∨
        (settleLoop ((⟨c.name, c.balance - rnd2 (min c.balance (-d.balance))⟩ :
          Party) :: cs) ds []).length = 0 := by
      rcases ih with h | h | h
      · exact absurd h (List.cons_ne_nil _ _)
      · subst h; rw [settleLoop_nil_right]; right; rfl
      · left; simpa using h
    have hemit : (if 0 < rnd2 (min c.balance (-d.balance)) then
        ([] : List Txn) ++ [⟨d.name, c.name, toFixed2 (rnd2 (min c.balance (-d.balance)))⟩]
        else []).length ≤ 1 := by
      by_cases ha : 0 < rnd2 (min c.balance (-d.balance)) <;> simp [ha]
    simp only [List.length_cons]
    omega
  | case6 c cs d ds acc0 h1 h2 ih =>
    exact absurd (removes_one c.balance d.balance)
      (by push_neg; exact ⟨le_of_not_lt h1, le_of_not_lt h2⟩)

/-- `|creditors| + |debtors|` units of fuel always suffice: the fuelled loop
returns, and returns the same transactions as the unbounded loop. -/
theorem settleLoopFuel_spec : ∀ (n : ℕ) (cs ds : List Party) (acc : List Txn),
    cs.length + ds.length ≤ n →
    settleLoopFuel n cs ds acc = some (settleLoop cs ds acc) := by
  intro n
  induction n with
  | zero =>
    intro cs ds acc h
    rcases cs with _ | ⟨c, cs⟩
    · rw [settleLoop_nil_left]; rfl
    · rcases ds with _ | ⟨d, ds⟩
      · rw [settleLoop_nil_right]; rfl
      · simp only [List.length_cons] at h; omega
  | succ n ih =>
    intro cs ds acc h
    rcases cs with _ | ⟨c, cs⟩
    · rw [settleLoop_nil_left]; rfl
    · rcases ds with _ | ⟨d, ds⟩
      · rw [settleLoop_nil_right]; rfl
      · rw [settleLoop_cons]
        show settleLoopFuel (n + 1) (c :: cs) (d :: ds) acc = _
        rw [settleLoopFuel]
        simp only [List.length_cons] at h
        rcases removes_one c.balance d.balance with hr | hr
        · rw [if_pos hr]
          by_cases h2 : |d.balance + rnd2 (min c.balance (-d.balance))| < 1 / 100
          · rw [if_pos h2]
            exact ih cs ds _ (by omega)
          · rw [if_neg h2]
            exact ih cs _ _ (by simp only [List.length_cons]; omega)
        · by_cases h1 : |c.balance - rnd2 (min c.balance (-d.balance))| < 1 / 100
          · rw [if_pos h1, if_pos hr]
            exact ih cs ds _ (by omega)
          · rw [if_neg h1, if_pos hr]
            exact ih _ ds _ (by simp only [List.length_cons]; omega)

/-- Every transaction the loop emits carries a positive whole number of cents,
rendered by `toFixed2`. -/
theorem settle_amount_shape (cs ds : List Party) (acc0 : List Txn) :
    ∀ t ∈ settleLoop cs ds [], ∃ k : ℕ, 0 < k ∧ t.amount = toFixed2 ((k : ℚ) / 100) := by
  induction cs, ds, acc0 using settleLoop.induct with
  | case1 ds acc0 => rw [settleLoop_nil_left]; intro t ht; exact absurd ht (List.not_mem_nil t)
  | case2 c cs acc0 => rw [settleLoop_nil_right]; intro t ht; exact absurd ht (List.not_mem_nil t)
  | case3 c cs d ds acc0 h1 h2 ih =>
    rw [settleLoop_cons, if_pos h1, if_pos h2, settleLoop_acc]
    intro t ht
    rcases List.mem_append.mp ht with he | hr
    · by_cases ha : 0 < rnd2 (min c.balance (-d.balance))
      · rw [if_pos ha] at he
        simp only [List.nil_append, List.mem_singleton] at he
        subst he
        obtain ⟨k, hk, hke⟩ := rnd2_pos_cents ha
        exact ⟨k, hk, by rw [← hke]⟩
      · rw [if_neg ha] at he
        exact absurd he (List.not_mem_nil t)
    · exact ih t hr
  | case4 c cs d ds acc0 h1 h2 ih =>
    rw [settleLoop_cons, if_pos h1, if_neg h2, settleLoop_acc]
    intro t ht
    rcases List.mem_append.mp ht with he | hr
    · by_cases ha : 0 < rnd2 (min c.balance (-d.balance))
      · rw [if_pos ha] at he
        simp only [List.nil_append, List.mem_singleton] at he
        subst he
        obtain ⟨k, hk, hke⟩ := rnd2_pos_cents ha
        exact ⟨k, hk, by rw [← hke]⟩
      · rw [if_neg ha] at he
        exact absurd he (List.not_mem_nil t)
    · exact ih t hr
  | case5 c cs d ds acc0 h1 h2 ih =>
    rw [settleLoop_cons, if_neg h1, if_pos h2, settleLoop_acc]
    intro t ht
    rcases List.mem_append.mp ht with he | hr
    · by_cases ha : 0 < rnd2 (min c.balance (-d.balance))
      · rw [if_pos ha] at he
        simp only [List.nil_append, List.mem_singleton] at he
        subst he
        obtain ⟨k, hk, hke⟩ := rnd2_pos_cents ha
        exact ⟨k, hk, by rw [← hke]⟩
      · rw [if_neg ha] at he
        exact absurd he (List.not_mem_nil t)
    · exact ih t hr
  | case6 c cs d ds acc0 h1 h2 ih =>
    exact absurd (removes_one c.balance d.balance)
      (by push_neg; exact ⟨le_of_not_lt h1, le_of_not_lt h2⟩)

theorem mem_objectKeys {m : String} : ∀ {l : List String}, m ∈ objectKeys l ↔ m ∈ l := by
  intro l
  induction l with
  | nil => rfl
  | cons k l ih =>
    rw [objectKeys]
    constructor
    · intro h
      rcases List.mem_cons.mp h with rfl | h
      · exact List.mem_cons_self _ _
      · exact List.mem_cons_of_mem _ (ih.mp (List.mem_of_mem_filter h))
    · intro h
      rcases List.mem_cons.mp h with rfl | h
      · exact List.mem_cons_self _ _
      · by_cases hk : m = k
        · subst hk; exact List.mem_cons_self _ _
        · refine List.mem_cons_of_mem _ (List.mem_filter.mpr ⟨ih.mpr h, ?_⟩)
          simp [hk]

theorem objectKeys_nodup : ∀ (l : List String), (objectKeys l).Nodup := by
  intro l
  induction l with
  | nil => exact List.nodup_nil
  | cons k l ih =>
    rw [objectKeys]
    refine List.nodup_cons.mpr ⟨?_, List.Nodup.filter _ ih⟩
    intro h
    have := (List.mem_filter.mp h).2
    simp at this

theorem objectKeys_of_nodup : ∀ {l : List String}, l.Nodup → objectKeys l = l := by
  intro l
  induction l with
  | nil => intro _; rfl
  | cons k l ih =>
    intro h
    rw [objectKeys, ih (List.nodup_cons.mp h).2]
    congr 1
    apply List.filter_eq_self.mpr
    intro a ha
    have : a ≠ k := fun he => (List.nodup_cons.mp h).1 (he ▸ ha)
    simp [this]

theorem objectKeys_append_singleton (l : List String) (d : String) :
    objectKeys (l ++ [d]) = objectKeys l ++ if d ∈ l then [] else [d] := by
  induction l with
  | nil => simp [objectKeys]
  | cons k l ih =>
    show objectKeys (k :: (l ++ [d])) = _
    rw [objectKeys, ih, List.filter_append, objectKeys]
    by_cases hdl : d ∈ l
    · rw [if_pos hdl, if_pos (List.mem_cons_of_mem k hdl)]
      simp
    · rw [if_neg hdl]
      by_cases hdk : d = k
      · subst hdk
        rw [if_pos (List.mem_cons_self d l)]
        simp
      · rw [if_neg (by simp [hdk, hdl])]
        have hfd : (List.filter (fun x => !(x == k)) [d]) = [d] := by
          simp [hdk]
        rw [hfd]
        rfl

theorem contains_iff_mem {l : List String} {m : String} : l.contains m = true ↔ m ∈ l :=
  List.elem_iff

/-- A name that is not a valid member never acquires a `totalSpent` entry. -/
theorem totalSpent_not_mem {vm : List String} {m : String} (h : m ∉ vm) :
    ∀ es : List Expense, totalSpentAfter vm es m = none := by
  have hinit : initSpent vm m = none := by
    unfold initSpent
    rw [if_neg (fun hc => h (contains_iff_mem.mp hc))]
  intro es
  induction es using List.reverseRecOn with
  | nil => exact hinit
  | append_singleton es e ih =>
    unfold totalSpentAfter at ih ⊢
    rw [List.foldl_append, List.foldl_cons, List.foldl_nil]
    unfold spendStep
    by_cases hcond : (e.payer == "" || !(vm.contains e.payer) || !e.amount.truthy) = true
    · rw [if_pos hcond]
      exact ih
    · rw [if_neg hcond]
      have hp : e.payer ∈ vm := by
        by_contra hnp
        apply hcond
        have hcf : vm.contains e.payer = false := by
          rw [← Bool.not_eq_true]
          exact fun hc => hnp (contains_iff_mem.mp hc)
        simp [hcf]
        exact Or.inl (Or.inr hnp)
      have hmne : ¬((m == e.payer) = true) := by
        simp only [beq_iff_eq]
        exact fun he => h (he ▸ hp)
      show (if (m == e.payer) = true then _ else _) = none
      rw [if_neg hmne]
      exact ih

theorem jsAdd_none_right (x : Option ℚ) : jsAdd x none = none := by cases x <;> rfl

theorem jsSub_none_right (x : Option ℚ) : jsSub x none = none := by cases x <;> rfl

theorem foldl_jsAdd_none (keys : List String) (f : String → Option ℚ) :
    keys.foldl (fun s m => jsAdd s (f m)) none = none := by
  induction keys with
  | nil => rfl
  | cons k keys ih => rw [List.foldl_cons]; exact ih

theorem foldl_jsAdd_some (keys : List String) (f : String → Option ℚ)
    (hall : ∀ m ∈ keys, ∃ q, f m = some q) :
    ∀ i : ℚ, keys.foldl (fun s m => jsAdd s (f m)) (some i) =
      some (i + (keys.map (fun m => (f m).getD 0)).sum) := by
  induction keys with
  | nil => intro i; simp
  | cons k keys ih =>
    intro i
    obtain ⟨q, hq⟩ := hall k (List.mem_cons_self k keys)
    rw [List.foldl_cons]
    have hstep : jsAdd (some i) (f k) = some (i + q) := by rw [hq]; rfl
    rw [hstep, ih (fun m hm => hall m (List.mem_cons_of_mem k hm)), List.map_cons,
      List.sum_cons, hq]
    congr 1
    show i + q + _ = i + (q + _)
    ring

theorem totalExpensesTS_some_all {vm : List String} {ts : String → Option ℚ} {T : ℚ}
    (h : totalExpensesTS vm ts = some T) :
    ∀ m ∈ objectKeys vm, ∃ q, ts m = some q := by
  intro m hm
  cases hts : ts m with
  | some q => exact ⟨q, rfl⟩
  | none =>
    exfalso
    obtain ⟨l1, l2, he⟩ := List.append_of_mem hm
    unfold totalExpensesTS at h
    rw [he, List.foldl_append, List.foldl_cons, hts, jsAdd_none_right, foldl_jsAdd_none] at h
    exact Option.noConfusion h

theorem totalExpensesTS_eq_sum {vm : List String} {ts : String → Option ℚ} {T : ℚ}
    (h : totalExpensesTS vm ts = some T) :
    T = ((objectKeys vm).map (fun m => (ts m).getD 0)).sum := by
  have hall := totalExpensesTS_some_all h
  unfold totalExpensesTS at h
  rw [foldl_jsAdd_some _ _ hall 0] at h
  have := Option.some.inj h
  linarith

theorem balanceTS_of_some {vm : List String} {ts : String → Option ℚ} {m : String} {s T : ℚ}
    (hs : ts m = some s) (hT : totalExpensesTS vm ts = some T) :
    balanceTS vm ts m = some (s - T / vm.length) := by
  unfold balanceTS fairShareTS
  rw [hT, hs]
  rfl

theorem balanceOf_some_mem {vm : List String} {es : List Expense} {m : String} {b : ℚ}
    (h : balanceOf vm es m = some b) : m ∈ vm := by
  by_contra hm
  unfold balanceOf balanceTS at h
  rw [totalSpent_not_mem hm es] at h
  exact Option.noConfusion h

theorem balanceOf_some_T {vm : List String} {es : List Expense} {m : String} {b : ℚ}
    (h : balanceOf vm es m = some b) :
    ∃ T, totalExpensesTS vm (totalSpentAfter vm es) = some T := by
  unfold balanceOf balanceTS fairShareTS at h
  cases hT : totalExpensesTS vm (totalSpentAfter vm es) with
  | none =>
    rw [hT] at h
    rw [show Option.map (fun t => t / (vm.length : ℚ)) none = none from rfl,
      jsSub_none_right] at h
    exact Option.noConfusion h
  | some T => exact ⟨T, rfl⟩

theorem mem_creditorsTS {vm : List String} {ts : String → Option ℚ} {m : String} {b : ℚ}
    (hm : m ∈ vm) (hb : balanceTS vm ts m = some b) (h0 : 0 < b) :
    (⟨m, b⟩ : Party) ∈ creditorsTS vm ts := by
  unfold creditorsTS
  refine List.mem_filterMap.mpr ⟨m, mem_objectKeys.mpr hm, ?_⟩
  show (match balanceTS vm ts m with
    | some b => if 0 < b then some (Party.mk m b) else none
    | none => none) = some ⟨m, b⟩
  rw [hb]
  show (if 0 < b then some (Party.mk m b) else none) = some ⟨m, b⟩
  rw [if_pos h0]

theorem mem_debtorsTS {vm : List String} {ts : String → Option ℚ} {m : String} {b : ℚ}
    (hm : m ∈ vm) (hb : balanceTS vm ts m = some b) (h0 : b < 0) :
    (⟨m, b⟩ : Party) ∈ debtorsTS vm ts := by
  unfold debtorsTS
  refine List.mem_filterMap.mpr ⟨m, mem_objectKeys.mpr hm, ?_⟩
  show (match balanceTS vm ts m with
    | some b => if b < 0 then some (Party.mk m b) else none
    | none => none) = some ⟨m, b⟩
  rw [hb]
  show (if b < 0 then some (Party.mk m b) else none) = some ⟨m, b⟩
  rw [if_pos h0]

theorem creditorsTS_balance {vm : List String} {ts : String → Option ℚ} :
    ∀ p ∈ creditorsTS vm ts, 0 < p.balance ∧ balanceTS vm ts p.name = some p.balance := by
  intro p hp
  obtain ⟨m, _, hsel⟩ := List.mem_filterMap.mp hp
  cases hbm : balanceTS vm ts m with
  | none => rw [hbm] at hsel; exact Option.noConfusion hsel
  | some b =>
    rw [hbm] at hsel
    replace hsel : (if 0 < b then some (Party.mk m b) else none) = some p := hsel
    by_cases h0 : 0 < b
    · rw [if_pos h0] at hsel
      obtain rfl := Option.some.inj hsel
      exact ⟨h0, hbm⟩
    · rw [if_neg h0] at hsel
      exact Option.noConfusion hsel

theorem debtorsTS_balance {vm : List String} {ts : String → Option ℚ} :
    ∀ p ∈ debtorsTS vm ts, p.balance < 0 ∧ balanceTS vm ts p.name = some p.balance := by
  intro p hp
  obtain ⟨m, _, hsel⟩ := List.mem_filterMap.mp hp
  cases hbm : balanceTS vm ts m with
  | none => rw [hbm] at hsel; exact Option.noConfusion hsel
  | some b =>
    rw [hbm] at hsel
    replace hsel : (if b < 0 then some (Party.mk m b) else none) = some p := hsel
    by_cases h0 : b < 0
    · rw [if_pos h0] at hsel
      obtain rfl := Option.some.inj hsel
      exact ⟨h0, hbm⟩
    · rw [if_neg h0] at hsel
      exact Option.noConfusion hsel

theorem filterMap_name_sublist (keys : List String) (f : String → Option Party)
    (hf : ∀ m p, f m = some p → p.name = m) :
    ((keys.filterMap f).map Party.name).Sublist keys := by
  induction keys with
  | nil => simp
  | cons k keys ih =>
    cases hsel : f k with
    | none => rw [List.filterMap_cons_none hsel]; exact ih.cons k
    | some p =>
      rw [List.filterMap_cons_some hsel, List.map_cons, hf k p hsel]
      exact ih.cons₂ k

theorem creditorsTS_names_sublist (vm : List String) (ts : String → Option ℚ) :
    ((creditorsTS vm ts).map Party.name).Sublist (objectKeys vm) := by
  unfold creditorsTS
  apply filterMap_name_sublist
  intro m p hp
  cases hb : balanceTS vm ts m with
  | none => rw [hb] at hp; exact Option.noConfusion hp
  | some b =>
    rw [hb] at hp
    replace hp : (if 0 < b then some (Party.mk m b) else none) = some p := hp
    by_cases h0 : 0 < b
    · rw [if_pos h0] at hp
      obtain rfl := Option.some.inj hp
      rfl
    · rw [if_neg h0] at hp
      exact Option.noConfusion hp

theorem debtorsTS_names_sublist (vm : List String) (ts : String → Option ℚ) :
    ((debtorsTS vm ts).map Party.name).Sublist (objectKeys vm) := by
  unfold debtorsTS
  apply filterMap_name_sublist
  intro m p hp
  cases hb : balanceTS vm ts m with
  | none => rw [hb] at hp; exact Option.noConfusion hp
  | some b =>
    rw [hb] at hp
    replace hp : (if b < 0 then some (Party.mk m b) else none) = some p := hp
    by_cases h0 : b < 0
    · rw [if_pos h0] at hp
      obtain rfl := Option.some.inj hp
      rfl
    · rw [if_neg h0] at hp
      exact Option.noConfusion hp

theorem sum_map_sub_const (l : List String) (f : String → ℚ) (c : ℚ) :
    (l.map (fun x => f x - c)).sum = (l.map f).sum - l.length * c := by
  induction l with
  | nil => simp
  | cons a l ih =>
    simp only [List.map_cons, List.sum_cons, List.length_cons, ih]
    push_cast
    ring

theorem filterMap_pos_neg_sum (keys : List String) (g : String → Option ℚ)
    (hall : ∀ m ∈ keys, ∃ q, g m = some q) :
    ((keys.filterMap (fun m => match g m with
        | some b => if 0 < b then some (Party.mk m b) else none
        | none => none)).map Party.balance).sum +
    ((keys.filterMap (fun m => match g m with
        | some b => if b < 0 then some (Party.mk m b) else none
        | none => none)).map Party.balance).sum =
    (keys.map (fun m => (g m).getD 0)).sum := by
  induction keys with
  | nil => simp
  | cons k keys ih =>
    obtain ⟨q, hq⟩ := hall k (List.mem_cons_self k keys)
    have ih' := ih (fun m hm => hall m (List.mem_cons_of_mem k hm))
    have hcval : ∀ h0 : 0 < q, (fun m => match g m with
        | some b => if 0 < b then some (Party.mk m b) else none
        | none => none) k = some (Party.mk k q) := by
      intro h0
      show (match g k with
        | some b => if 0 < b then some (Party.mk k b) else none
        | none => none) = _
      rw [hq]
      show (if 0 < q then some (Party.mk k q) else none) = _
      rw [if_pos h0]
    have hcz : ∀ _h0 : ¬0 < q, (fun m => match g m with
        | some b => if 0 < b then some (Party.mk m b) else none
        | none => none) k = none := by
      intro h0
      show (match g k with
        | some b => if 0 < b then some (Party.mk k b) else none
        | none => none) = none
      rw [hq]
      show (if 0 < q then some (Party.mk k q) else none) = none
      rw [if_neg h0]
    have hdval : ∀ h0 : q < 0, (fun m => match g m with
        | some b => if b < 0 then some (Party.mk m b) else none
        | none => none) k = some (Party.mk k q) := by
      intro h0
      show (match g k with
        | some b => if b < 0 then some (Party.mk k b) else none
        | none => none) = _
      rw [hq]
      show (if q < 0 then some (Party.mk k q) else none) = _
      rw [if_pos h0]
    have hdz : ∀ _h0 : ¬q < 0, (fun m => match g m with
        | some b => if b < 0 then some (Party.mk m b) else none
        | none => none) k = none := by
      intro h0
      show (match g k with
        | some b => if b < 0 then some (Party.mk k b) else none
        | none => none) = none
      rw [hq]
      show (if q < 0 then some (Party.mk k q) else none) = none
      rw [if_neg h0]
    rw [List.map_cons, List.sum_cons, hq]
    rcases lt_trichotomy 0 q with h0 | h0 | h0
    · have hstepc : List.filterMap (fun m => match g m with
          | some b => if 0 < b then some (Party.mk m b) else none
          | none => none) (k :: keys) =
          Party.mk k q :: List.filterMap (fun m => match g m with
          | some b => if 0 < b then some (Party.mk m b) else none
          | none => none) keys := List.filterMap_cons_some (hcval h0)
      have hstepd : List.filterMap (fun m => match g m with
          | some b => if b < 0 then some (Party.mk m b) else none
          | none => none) (k :: keys) =
          List.filterMap (fun m => match g m with
          | some b => if b < 0 then some (Party.mk m b) else none
          | none => none) keys := List.filterMap_cons_none (hdz (by linarith))
      rw [hstepc, hstepd, List.map_cons, List.sum_cons]
      show q + _ + _ = q + _
      linarith
    · have hstepc : List.filterMap (fun m => match g m with
          | some b => if 0 < b then some (Party.mk m b) else none
          | none => none) (k :: keys) =
          List.filterMap (fun m => match g m with
          | some b => if 0 < b then some (Party.mk m b) else none
          | none => none) keys := List.filterMap_cons_none (hcz (by linarith))
      have hstepd : List.filterMap (fun m => match g m with
          | some b => if b < 0 then some (Party.mk m b) else none
          | none => none) (k :: keys) =
          List.filterMap (fun m => match g m with
          | some b => if b < 0 then some (Party.mk m b) else none
          | none => none) keys := List.filterMap_cons_none (hdz (by linarith))
      rw [hstepc, hstepd]
      show (_ : ℚ) + _ = q + _
      linarith
    · have hstepc : List.filterMap (fun m => match g m with
          | some b => if 0 < b then some (Party.mk m b) else none
          | none => none) (k :: keys) =
          List.filterMap (fun m => match g m with
          | some b => if 0 < b then some (Party.mk m b) else none
          | none => none) keys := List.filterMap_cons_none (hcz (by linarith))
      have hstepd : List.filterMap (fun m => match g m with
          | some b => if b < 0 then some (Party.mk m b) else none
          | none => none) (k :: keys) =
          Party.mk k q :: List.filterMap (fun m => match g m with
          | some b => if b < 0 then some (Party.mk m b) else none
          | none => none) keys := List.filterMap_cons_some (hdval h0)
      rw [hstepc, hstepd, List.map_cons, List.sum_cons]
      show (_ : ℚ) + (q + _) = q + _
      linarith

theorem balance_sum_zero {vm : List String} {ts : String → Option ℚ} {T : ℚ}
    (hnd : vm.Nodup) (hvm : vm ≠ []) (hT : totalExpensesTS vm ts = some T) :
    ((creditorsTS vm ts).map Party.balance).sum +
      ((debtorsTS vm ts).map Party.balance).sum = 0 := by
  have hall := totalExpensesTS_some_all hT
  have hballs : ∀ m ∈ objectKeys vm, ∃ q, balanceTS vm ts m = some q := by
    intro m hm
    obtain ⟨s, hs⟩ := hall m hm
    exact ⟨s - T / vm.length, balanceTS_of_some hs hT⟩
  unfold creditorsTS debtorsTS
  rw [filterMap_pos_neg_sum _ _ hballs]
  have hsum := totalExpensesTS_eq_sum hT
  have hmapeq : ((objectKeys vm).map (fun m => (balanceTS vm ts m).getD 0)) =
      ((objectKeys vm).map (fun m => (ts m).getD 0 - T / vm.length)) := by
    apply List.map_congr_left
    intro m hm
    obtain ⟨s, hs⟩ := hall m hm
    rw [balanceTS_of_some hs hT, hs]
    rfl
  rw [hmapeq, sum_map_sub_const, ← hsum, objectKeys_of_nodup hnd]
  have hlen : (vm.length : ℚ) ≠ 0 :=
    Nat.cast_ne_zero.mpr (fun h0 => hvm (List.length_eq_zero.mp h0))
  field_simp

theorem calc_eq_loop (es : List Expense) (ms : List String) (hes : es ≠ [])
    (hvm : validMembersOf ms ≠ []) :
    calculateExpenseSplit (some es) (some ms) =
      settleLoop (sortCreditors (creditorsOf (validMembersOf ms) es))
        (sortDebtors (debtorsOf (validMembersOf ms) es)) [] := by
  have hms : ms ≠ [] := by
    intro h
    apply hvm
    rw [h]
    rfl
  show (if es.length = 0 then []
    else if ms.length = 0 then []
    else if (validMembersOf ms).length = 0 then []
    else settleLoop (sortCreditors (creditorsOf (validMembersOf ms) es))
      (sortDebtors (debtorsOf (validMembersOf ms) es)) []) = _
  rw [if_neg (fun h => hes (List.length_eq_zero.mp h)),
    if_neg (fun h => hms (List.length_eq_zero.mp h)),
    if_neg (fun h => hvm (List.length_eq_zero.mp h))]

theorem calcExec_eq (eo : Option (List Expense)) (mo : Option (List String)) :
    calcExec eo mo = calculateExpenseSplit eo mo := by
  rcases eo with _ | es
  · rfl
  rcases mo with _ | ms
  · rfl
  show (if es.length = 0 then []
    else if ms.length = 0 then []
    else if (validMembersOf ms).length = 0 then []
    else
      (settleLoopFuel
        ((sortCreditors (creditorsOf (validMembersOf ms) es)).length +
          (sortDebtors (debtorsOf (validMembersOf ms) es)).length)
        (sortCreditors (creditorsOf (validMembersOf ms) es))
        (sortDebtors (debtorsOf (validMembersOf ms) es)) []).getD []) =
    (if es.length = 0 then []
    else if ms.length = 0 then []
    else if (validMembersOf ms).length = 0 then []
    else settleLoop (sortCreditors (creditorsOf (validMembersOf ms) es))
      (sortDebtors (debtorsOf (validMembersOf ms) es)) [])
  by_cases h1 : es.length = 0
  · rw [if_pos h1, if_pos h1]
  · rw [if_neg h1, if_neg h1]
    by_cases h2 : ms.length = 0
    · rw [if_pos h2, if_pos h2]
    · rw [if_neg h2, if_neg h2]
      by_cases h3 : (validMembersOf ms).length = 0
      · rw [if_pos h3, if_pos h3]
      · rw [if_neg h3, if_neg h3, settleLoopFuel_spec _ _ _ _ (le_refl _)]
        rfl

theorem totalExpensesTS_init (vm : List String) :
    totalExpensesTS vm (initSpent vm) = some 0 := by
  have hall : ∀ m ∈ objectKeys vm, ∃ q, initSpent vm m = some q := by
    intro m hm
    refine ⟨0, ?_⟩
    unfold initSpent
    rw [if_pos (contains_iff_mem.mpr (mem_objectKeys.mp hm))]
  unfold totalExpensesTS
  rw [foldl_jsAdd_some _ _ hall 0]
  congr 1
  have hz : ∀ x ∈ (objectKeys vm).map (fun m => (initSpent vm m).getD 0), x = 0 := by
    intro x hx
    obtain ⟨m, hm, rfl⟩ := List.mem_map.mp hx
    unfold initSpent
    rw [if_pos (contains_iff_mem.mpr (mem_objectKeys.mp hm))]
    rfl
  rw [List.sum_eq_zero hz]
  ring

theorem balanceTS_init {vm : List String} {m : String} (hm : m ∈ vm) :
    balanceTS vm (initSpent vm) m = some 0 := by
  have hs : initSpent vm m = some 0 := by
    unfold initSpent
    rw [if_pos (contains_iff_mem.mpr hm)]
  rw [balanceTS_of_some hs (totalExpensesTS_init vm)]
  norm_num

theorem totalSpentAfter_nil (vm : List String) : totalSpentAfter vm [] = initSpent vm := rfl

theorem creditorsTS_init (vm : List String) : creditorsTS vm (initSpent vm) = [] := by
  unfold creditorsTS
  rw [List.filterMap_eq_nil_iff]
  intro m hm
  show (match balanceTS vm (initSpent vm) m with
    | some b => if 0 < b then some (Party.mk m b) else none
    | none => none) = none
  rw [balanceTS_init (mem_objectKeys.mp hm)]
  show (if (0 : ℚ) < 0 then some (Party.mk m 0) else none) = none
  rw [if_neg (lt_irrefl 0)]

theorem debtorsTS_init (vm : List String) : debtorsTS vm (initSpent vm) = [] := by
  unfold debtorsTS
  rw [List.filterMap_eq_nil_iff]
  intro m hm
  show (match balanceTS vm (initSpent vm) m with
    | some b => if b < 0 then some (Party.mk m b) else none
    | none => none) = none
  rw [balanceTS_init (mem_objectKeys.mp hm)]
  show (if (0 : ℚ) < 0 then some (Party.mk m 0) else none) = none
  rw [if_neg (lt_irrefl 0)]

theorem sortCreditors_perm (l : List Party) : (sortCreditors l).Perm l :=
  List.perm_insertionSort _ l

theorem sortDebtors_perm (l : List Party) : (sortDebtors l).Perm l :=
  List.perm_insertionSort _ l

/-- In every branch — including the degenerate ones, where the creditor and
debtor lists are empty — `calculateExpenseSplit` returns exactly what the
matching loop returns on the sorted creditor and debtor lists. -/
theorem calc_eq_loop_always (es : List Expense) (ms : List String) :
    calculateExpenseSplit (some es) (some ms) =
      settleLoop (sortCreditors (creditorsOf (validMembersOf ms) es))
        (sortDebtors (debtorsOf (validMembersOf ms) es)) [] := by
  by_cases hes : es = []
  · subst hes
    have hc : creditorsOf (validMembersOf ms) [] = [] := creditorsTS_init _
    have h1 : calculateExpenseSplit (some []) (some ms) = [] := rfl
    rw [h1, hc, show sortCreditors [] = [] from rfl, settleLoop_nil_left]
  · by_cases hvm : validMembersOf ms = []
    · have hc : creditorsOf (validMembersOf ms) es = [] := by
        rw [hvm]
        rfl
      have hcalc : calculateExpenseSplit (some es) (some ms) = [] := by
        show (if es.length = 0 then []
          else if ms.length = 0 then []
          else if (validMembersOf ms).length = 0 then []
          else settleLoop (sortCreditors (creditorsOf (validMembersOf ms) es))
            (sortDebtors (debtorsOf (validMembersOf ms) es)) []) = []
        by_cases h1 : es.length = 0
        · rw [if_pos h1]
        · rw [if_neg h1]
          by_cases h2 : ms.length = 0
          · rw [if_pos h2]
          · rw [if_neg h2, if_pos (by rw [hvm]; rfl)]
      rw [hcalc, hc, show sortCreditors [] = [] from rfl, settleLoop_nil_left]
    · exact calc_eq_loop es ms hes hvm

/-- A skipped expense (invalid payer or falsy amount) leaves the `totalSpent`
map untouched. -/
theorem totalSpent_skip {vm : List String} {e : Expense}
    (h : e.payer ∉ vm ∨ e.amount.truthy = false) (es₁ es₂ : List Expense) :
    totalSpentAfter vm (es₁ ++ e :: es₂) = totalSpentAfter vm (es₁ ++ es₂) := by
  unfold totalSpentAfter
  rw [List.foldl_append, List.foldl_append, List.foldl_cons]
  congr 1
  unfold spendStep
  rw [if_pos]
  rcases h with h | h
  · have hcf : vm.contains e.payer = false := by
      rw [← Bool.not_eq_true]
      exact fun hc => h (contains_iff_mem.mp hc)
    simp [hcf]
    exact Or.inl (Or.inr h)
  · simp [h]

theorem calc_vm_empty {ms : List String} (es : List Expense)
    (hvm : validMembersOf ms = []) : calculateExpenseSplit (some es) (some ms) = [] := by
  rw [calc_eq_loop_always,
    show creditorsOf (validMembersOf ms) es = [] from by rw [hvm]; rfl,
    show sortCreditors [] = [] from rfl, settleLoop_nil_left]

/-- The expense aggregation depends on the valid-member list only through
membership. -/
theorem totalSpent_vm_congr {vm₁ vm₂ : List String}
    (hc : ∀ x, vm₁.contains x = vm₂.contains x) (es : List Expense) :
    ∀ (ts₁ ts₂ : String → Option ℚ), (∀ x, ts₁ x = ts₂ x) →
      ∀ m, (es.foldl (spendStep vm₁) ts₁) m = (es.foldl (spendStep vm₂) ts₂) m := by
  induction es with
  | nil => intro ts₁ ts₂ h m; exact h m
  | cons e es ih =>
    intro ts₁ ts₂ h m
    rw [List.foldl_cons, List.foldl_cons]
    apply ih
    intro x
    unfold spendStep
    rw [hc e.payer]
    by_cases hcond : (e.payer == "" || !(vm₂.contains e.payer) || !e.amount.truthy) = true
    · rw [if_pos hcond, if_pos hcond]
      exact h x
    · rw [if_neg hcond, if_neg hcond]
      show (if (x == e.payer) = true then _ else ts₁ x) =
        (if (x == e.payer) = true then _ else ts₂ x)
      by_cases hx : (x == e.payer) = true
      · rw [if_pos hx, if_pos hx, h e.payer]
      · rw [if_neg hx, if_neg hx]
        exact h x

/-- **C2.** Transaction-count bound: the number of transactions returned by
`calculateExpenseSplit` is at most
`min(|creditors|, |debtors|) + max(|creditors|, |debtors|) - 1` (truncated
subtraction), where creditors and debtors are the members with strictly
positive resp. strictly negative initial balance; in particular the bound is
independent of the number of expenses. -/
theorem C2_transaction_count_bound (es : List Expense) (ms : List String) :
    (calculateExpenseSplit (some es) (some ms)).length ≤
      min (creditorsOf (validMembersOf ms) es).length
          (debtorsOf (validMembersOf ms) es).length +
        max (creditorsOf (validMembersOf ms) es).length
          (debtorsOf (validMembersOf ms) es).length - 1 := by
  rw [calc_eq_loop_always]
  rcases settle_len (sortCreditors (creditorsOf (validMembersOf ms) es))
      (sortDebtors (debtorsOf (validMembersOf ms) es)) [] with h | h | h
  · rw [h, settleLoop_nil_left]
    exact Nat.zero_le _
  · rw [h, settleLoop_nil_right]
    exact Nat.zero_le _
  · have hC := (sortCreditors_perm (creditorsOf (validMembersOf ms) es)).length_eq
    have hD := (sortDebtors_perm (debtorsOf (validMembersOf ms) es)).length_eq
    rw [min_add_max]
    omega

/-- **C3.** Unconditional termination: with fuel `|creditors| + |debtors|`
(one unit per loop iteration, since every iteration removes at least one list
entry) the fuelled loop completes and returns exactly the settlement that
`calculateExpenseSplit` returns — for every input. -/
theorem C3_termination_within_fuel (es : List Expense) (ms : List String) :
    settleLoopFuel
      ((sortCreditors (creditorsOf (validMembersOf ms) es)).length +
        (sortDebtors (debtorsOf (validMembersOf ms) es)).length)
      (sortCreditors (creditorsOf (validMembersOf ms) es))
      (sortDebtors (debtorsOf (validMembersOf ms) es)) [] =
      some (calculateExpenseSplit (some es) (some ms)) := by
  rw [calc_eq_loop_always]
  exact settleLoopFuel_spec _ _ _ _ (le_refl _)

/-- **C4.** Emitted-amount form: every transaction in the output carries a
positive whole number of cents `k`, rendered by `toFixed2` (multiply by 100,
round to nearest, divide by 100); the string has exactly 2 decimal digits
after the point and parses back to `k / 100 > 0`. -/
theorem C4_amount_form (es : List Expense) (ms : List String) :
    ∀ t ∈ calculateExpenseSplit (some es) (some ms),
      ∃ k : ℕ, 0 < k ∧ t.amount = toFixed2 ((k : ℚ) / 100) ∧
        parseAmount t.amount = (k : ℚ) / 100 ∧ 0 < parseAmount t.amount ∧
        (fracChars t.amount).length = 2 ∧ ∀ c ∈ fracChars t.amount, c.isDigit = true := by
  rw [calc_eq_loop_always]
  intro t ht
  obtain ⟨k, hk, he⟩ := settle_amount_shape _ _ [] t ht
  have hkpos : (0 : ℚ) < (k : ℚ) / 100 := div_pos (by exact_mod_cast hk) (by norm_num)
  refine ⟨k, hk, he, ?_, ?_, ?_, ?_⟩
  · rw [he, toFixed2_cents, parseAmount_centsChars]
  · rw [he, toFixed2_cents, parseAmount_centsChars]
    exact hkpos
  · rw [he, toFixed2_cents, fracChars_centsChars, pad2_length (Nat.mod_lt _ (by omega))]
  · rw [he, toFixed2_cents, fracChars_centsChars]
    exact pad2_isDigit _

/-- **C5.** Degenerate inputs yield an empty result without error: a `null` or
empty expense list, a `null` or empty member list, or a member list whose
names are all empty/whitespace-only, produce `[]`. -/
theorem C5_degenerate_inputs_empty (eo : Option (List Expense)) (mo : Option (List String))
    (h : eo = none ∨ eo = some [] ∨ mo = none ∨ mo = some [] ∨
      ∃ ms, mo = some ms ∧ validMembersOf ms = []) :
    calculateExpenseSplit eo mo = [] := by
  rcases h with rfl | rfl | rfl | rfl | ⟨ms, rfl, hvm⟩
  · rfl
  · rcases mo with _ | ms
    · rfl
    · rfl
  · rcases eo with _ | es
    · rfl
    · rfl
  · rcases eo with _ | es
    · rfl
    · show (if es.length = 0 then []
        else if ([] : List String).length = 0 then []
        else if (validMembersOf []).length = 0 then []
        else settleLoop (sortCreditors (creditorsOf (validMembersOf []) es))
          (sortDebtors (debtorsOf (validMembersOf []) es)) []) = []
      by_cases h1 : es.length = 0
      · rw [if_pos h1]
      · rw [if_neg h1, if_pos (show ([] : List String).length = 0 from rfl)]
  · rcases eo with _ | es
    · rfl
    · show (if es.length = 0 then []
        else if ms.length = 0 then []
        else if (validMembersOf ms).length = 0 then []
        else settleLoop (sortCreditors (creditorsOf (validMembersOf ms) es))
          (sortDebtors (debtorsOf (validMembersOf ms) es)) []) = []
      by_cases h1 : es.length = 0
      · rw [if_pos h1]
      · rw [if_neg h1]
        by_cases h2 : ms.length = 0
        · rw [if_pos h2]
        · rw [if_neg h2, if_pos (by rw [hvm]; rfl)]

/-- Witness for **C5**: a nonempty expense list with members `["", "  "]`
(one empty and one whitespace-only name) yields the empty output. -/
theorem C5_degenerate_inputs_empty_witness :
    (∃ ms, (some ["", "  "] : Option (List String)) = some ms ∧ validMembersOf ms = []) ∧
    calculateExpenseSplit (some [⟨"A", ⟨true, some 5⟩⟩]) (some ["", "  "]) = [] :=
  ⟨⟨["", "  "], rfl, by decide⟩,
    C5_degenerate_inputs_empty (some [⟨"A", ⟨true, some 5⟩⟩]) (some ["", "  "])
      (Or.inr (Or.inr (Or.inr (Or.inr ⟨["", "  "], rfl, by decide⟩))))⟩

/-- **C7.** Whitespace-name filtering is transparent: for every expense input,
a member list with empty or whitespace-only names behaves exactly like the
same list with those names removed. -/
theorem C7_whitespace_filter_transparent (eo : Option (List Expense)) (ms : List String) :
    calculateExpenseSplit eo (some ms) =
      calculateExpenseSplit eo (some (ms.filter validName)) := by
  rcases eo with _ | es
  · rfl
  have hvm : validMembersOf (ms.filter validName) = validMembersOf ms := by
    unfold validMembersOf
    rw [List.filter_filter]
    apply List.filter_congr
    intro a _
    exact Bool.and_self _
  have hv : validMembersOf ms = ms.filter validName := rfl
  show (if es.length = 0 then []
    else if ms.length = 0 then []
    else if (validMembersOf ms).length = 0 then []
    else settleLoop (sortCreditors (creditorsOf (validMembersOf ms) es))
      (sortDebtors (debtorsOf (validMembersOf ms) es)) []) =
    (if es.length = 0 then []
    else if (ms.filter validName).length = 0 then []
    else if (validMembersOf (ms.filter validName)).length = 0 then []
    else settleLoop (sortCreditors (creditorsOf (validMembersOf (ms.filter validName)) es))
      (sortDebtors (debtorsOf (validMembersOf (ms.filter validName)) es)) [])
  rw [hvm, hv]
  by_cases h1 : es.length = 0
  · rw [if_pos h1, if_pos h1]
  · rw [if_neg h1, if_neg h1]
    by_cases h2 : ms.length = 0
    · have hms : ms = [] := List.length_eq_zero.mp h2
      subst hms
      rfl
    · rw [if_neg h2]
      by_cases h3 : (ms.filter validName).length = 0
      · rw [if_pos h3, if_pos h3]
      · rw [if_neg h3, if_neg h3]

/-- **C6.** Invalid expenses are dropped and processing continues: an expense
whose payer is not a valid member name, or whose amount is falsy (which
includes the NaN number value), contributes nothing — the output equals the
output on the input with that expense removed. -/
theorem C6_invalid_expense_dropped (es₁ es₂ : List Expense) (e : Expense) (ms : List String)
    (h : e.payer ∉ validMembersOf ms ∨ e.amount.truthy = false) :
    calculateExpenseSplit (some (es₁ ++ e :: es₂)) (some ms) =
      calculateExpenseSplit (some (es₁ ++ es₂)) (some ms) := by
  have hts := totalSpent_skip h es₁ es₂
  by_cases hvm : validMembersOf ms = []
  · rw [calc_vm_empty _ hvm, calc_vm_empty _ hvm]
  · by_cases h12 : es₁ ++ es₂ = []
    · obtain ⟨rfl, rfl⟩ := List.append_eq_nil.mp h12
      rw [calc_eq_loop_always]
      have hcred : creditorsOf (validMembersOf ms) ([] ++ e :: []) = [] := by
        unfold creditorsOf
        rw [hts]
        exact creditorsTS_init _
      rw [hcred, show sortCreditors [] = [] from rfl, settleLoop_nil_left]
      rfl
    · have hne : es₁ ++ e :: es₂ ≠ [] := by simp
      rw [calc_eq_loop _ _ hne hvm, calc_eq_loop _ _ h12 hvm]
      unfold creditorsOf debtorsOf
      rw [hts]

/-- Witness for **C6**: an expense paid by the non-member `"C"` is dropped;
the output with it equals the output without it. -/
theorem C6_invalid_expense_dropped_witness :
    ((⟨"C", ⟨true, some 100⟩⟩ : Expense).payer ∉ validMembersOf ["A", "B"] ∨
      (⟨"C", ⟨true, some 100⟩⟩ : Expense).amount.truthy = false) ∧
    calculateExpenseSplit
        (some ([⟨"A", ⟨true, some 30⟩⟩] ++ (⟨"C", ⟨true, some 100⟩⟩ : Expense) :: []))
        (some ["A", "B"]) =
      calculateExpenseSplit (some ([⟨"A", ⟨true, some 30⟩⟩] ++ [])) (some ["A", "B"]) :=
  ⟨Or.inl (by decide),
    C6_invalid_expense_dropped [⟨"A", ⟨true, some 30⟩⟩] [] ⟨"C", ⟨true, some 100⟩⟩ ["A", "B"]
      (Or.inl (by decide))⟩

/-- **C9 (amended).** Names are the key identity for aggregation: appending a
duplicate of an already-present valid name leaves the `totalSpent` map and the
`Object.keys` order unchanged (an expense by that payer is credited once).
The full output can nevertheless change, because the fair share divides by the
valid-member count *with* multiplicity — see the counterexample. -/
theorem C9_duplicate_name_aggregation (es : List Expense) (ms : List String) (d : String)
    (hd : d ∈ validMembersOf ms) :
    (∀ m, totalSpentAfter (validMembersOf (ms ++ [d])) es m =
      totalSpentAfter (validMembersOf ms) es m) ∧
    objectKeys (validMembersOf (ms ++ [d])) = objectKeys (validMembersOf ms) := by
  have hval : validName d = true := (List.mem_filter.mp hd).2
  have hvm' : validMembersOf (ms ++ [d]) = validMembersOf ms ++ [d] := by
    unfold validMembersOf
    rw [List.filter_append]
    congr 1
    simp [hval]
  have hcontains : ∀ x : String,
      (validMembersOf ms ++ [d]).contains x = (validMembersOf ms).contains x := by
    intro x
    by_cases hx : x ∈ validMembersOf ms
    · rw [contains_iff_mem.mpr hx, contains_iff_mem.mpr (List.mem_append_left _ hx)]
    · have hx2 : x ∉ validMembersOf ms ++ [d] := by
        intro hmem
        rcases List.mem_append.mp hmem with hmem | hmem
        · exact hx hmem
        · rw [List.mem_singleton] at hmem
          exact hx (hmem ▸ hd)
      have h1 : (validMembersOf ms ++ [d]).contains x = false := by
        rw [← Bool.not_eq_true]
        exact fun hc => hx2 (contains_iff_mem.mp hc)
      have h2 : (validMembersOf ms).contains x = false := by
        rw [← Bool.not_eq_true]
        exact fun hc => hx (contains_iff_mem.mp hc)
      rw [h1, h2]
  constructor
  · intro m
    rw [hvm']
    exact totalSpent_vm_congr hcontains es (initSpent (validMembersOf ms ++ [d]))
      (initSpent (validMembersOf ms)) (fun x => by unfold initSpent; rw [hcontains x]) m
  · rw [hvm', objectKeys_append_singleton, if_pos hd, List.append_nil]

/-- Witness for **C9 (amended)**: duplicating `"A"` in `["A", "B"]` leaves the
aggregation map and key order unchanged. -/
theorem C9_duplicate_name_aggregation_witness :
    ("A" ∈ validMembersOf ["A", "B"]) ∧
    ((∀ m, totalSpentAfter (validMembersOf (["A", "B"] ++ ["A"])) [⟨"A", ⟨true, some 90⟩⟩] m =
      totalSpentAfter (validMembersOf ["A", "B"]) [⟨"A", ⟨true, some 90⟩⟩] m) ∧
    objectKeys (validMembersOf (["A", "B"] ++ ["A"])) = objectKeys (validMembersOf ["A", "B"])) :=
  ⟨by decide, C9_duplicate_name_aggregation [⟨"A", ⟨true, some 90⟩⟩] ["A", "B"] "A" (by decide)⟩

/-- **C10 (amended).** NaN-amount poisoning happens exactly when it is not
overwritten later: if some expense has a valid payer and a truthy amount whose
numeric conversion is NaN, and no later expense with the same payer has a
truthy amount (which would reset the total via `totalSpent[payer] || 0`), then
that payer's total is NaN, every balance is NaN, no member is classified as
creditor or debtor, and the function returns the empty list. -/
theorem C10_nan_poisoning_when_last (es₁ es₂ : List Expense) (e : Expense) (ms : List String)
    (hp : e.payer ∈ validMembersOf ms) (ht : e.amount.truthy = true)
    (hn : e.amount.toNum = none)
    (hlast : ∀ e' ∈ es₂, e'.payer = e.payer → e'.amount.truthy = false) :
    totalSpentAfter (validMembersOf ms) (es₁ ++ e :: es₂) e.payer = none ∧
    (∀ m, balanceOf (validMembersOf ms) (es₁ ++ e :: es₂) m = none) ∧
    calculateExpenseSplit (some (es₁ ++ e :: es₂)) (some ms) = [] := by
  have hpne : e.payer ≠ "" := by
    intro h0
    have : validName "" = true := (List.mem_filter.mp (h0 ▸ hp)).2
    exact absurd this (by decide)
  have hcontains : (validMembersOf ms).contains e.payer = true :=
    contains_iff_mem.mpr hp
  -- after processing `e`, the payer's entry is NaN
  have hafter : (List.foldl (spendStep (validMembersOf ms)) (initSpent (validMembersOf ms))
      (es₁ ++ [e])) e.payer = none := by
    rw [List.foldl_append, List.foldl_cons, List.foldl_nil]
    unfold spendStep
    rw [if_neg (by simp [hpne, hcontains, ht, hp])]
    show (if (e.payer == e.payer) = true then _ else _) = none
    rw [if_pos (by simp), hn]
  -- later expenses never make it non-NaN again
  have hts : totalSpentAfter (validMembersOf ms) (es₁ ++ e :: es₂) e.payer = none := by
    unfold totalSpentAfter
    rw [show es₁ ++ e :: es₂ = (es₁ ++ [e]) ++ es₂ by simp, List.foldl_append]
    have : ∀ (es' : List Expense) (ts : String → Option ℚ),
        (∀ e' ∈ es', e'.payer = e.payer → e'.amount.truthy = false) →
        ts e.payer = none →
        (es'.foldl (spendStep (validMembersOf ms)) ts) e.payer = none := by
      intro es'
      induction es' with
      | nil => intro ts _ h0; exact h0
      | cons e' es' ih =>
        intro ts hl h0
        rw [List.foldl_cons]
        refine ih _ (fun x hx hpx => hl x (List.mem_cons_of_mem e' hx) hpx) ?_
        unfold spendStep
        by_cases hcond : (e'.payer == "" || !((validMembersOf ms).contains e'.payer) ||
            !e'.amount.truthy) = true
        · rw [if_pos hcond]
          exact h0
        · rw [if_neg hcond]
          have htr : e'.amount.truthy = true := by
            by_contra hf
            apply hcond
            simp [Bool.not_eq_true] at hf
            simp [hf]
          have hne : e'.payer ≠ e.payer := by
            intro he
            have := hl e' (List.mem_cons_self e' es') he
            rw [htr] at this
            exact Bool.noConfusion this
          show (if (e.payer == e'.payer) = true then _ else _) = none
          rw [if_neg (by simp only [beq_iff_eq]; exact fun he => hne he.symm)]
          exact h0
    exact this es₂ _ hlast hafter
  have hT : totalExpensesTS (validMembersOf ms) (totalSpentAfter (validMembersOf ms)
      (es₁ ++ e :: es₂)) = none := by
    cases hTc : totalExpensesTS (validMembersOf ms) (totalSpentAfter (validMembersOf ms)
        (es₁ ++ e :: es₂)) with
    | none => rfl
    | some T =>
      obtain ⟨q, hq⟩ := totalExpensesTS_some_all hTc e.payer (mem_objectKeys.mpr hp)
      rw [hts] at hq
      exact Option.noConfusion hq
  have hbal : ∀ m, balanceOf (validMembersOf ms) (es₁ ++ e :: es₂) m = none := by
    intro m
    unfold balanceOf balanceTS fairShareTS
    rw [hT]
    exact jsSub_none_right _
  refine ⟨hts, hbal, ?_⟩
  rw [calc_eq_loop_always]
  have hcred : creditorsOf (validMembersOf ms) (es₁ ++ e :: es₂) = [] := by
    unfold creditorsOf creditorsTS
    rw [List.filterMap_eq_nil_iff]
    intro m _
    show (match balanceTS (validMembersOf ms)
        (totalSpentAfter (validMembersOf ms) (es₁ ++ e :: es₂)) m with
      | some b => if 0 < b then some (Party.mk m b) else none
      | none => none) = none
    rw [show balanceTS (validMembersOf ms)
        (totalSpentAfter (validMembersOf ms) (es₁ ++ e :: es₂)) m = none from hbal m]
  rw [hcred, show sortCreditors [] = [] from rfl, settleLoop_nil_left]

/-- Witness for **C10 (amended)**: a single truthy NaN-amount expense by `"A"`
poisons the totals and the output is empty. -/
theorem C10_nan_poisoning_when_last_witness :
    ((⟨"A", ⟨true, none⟩⟩ : Expense).payer ∈ validMembersOf ["A", "B"]) ∧
    (totalSpentAfter (validMembersOf ["A", "B"]) ([] ++ (⟨"A", ⟨true, none⟩⟩ : Expense) :: [])
        (⟨"A", ⟨true, none⟩⟩ : Expense).payer = none ∧
      (∀ m, balanceOf (validMembersOf ["A", "B"])
        ([] ++ (⟨"A", ⟨true, none⟩⟩ : Expense) :: []) m = none) ∧
      calculateExpenseSplit (some ([] ++ (⟨"A", ⟨true, none⟩⟩ : Expense) :: []))
        (some ["A", "B"]) = []) :=
  ⟨by decide,
    C10_nan_poisoning_when_last [] [] ⟨"A", ⟨true, none⟩⟩ ["A", "B"] (by decide) rfl rfl
      (fun e' he' => absurd he' (List.not_mem_nil e'))⟩

/-- One creditor and one debtor with exactly opposite whole-cent balances
settle in a single transaction. -/
theorem settleLoop_single_exact (nc nd : String) (k : ℕ) (hk : 0 < k) :
    settleLoop [⟨nc, (k : ℚ) / 100⟩] [⟨nd, -((k : ℚ) / 100)⟩] [] =
      [⟨nd, nc, toFixed2 ((k : ℚ) / 100)⟩] := by
  have hkq : (0 : ℚ) < (k : ℚ) / 100 := div_pos (by exact_mod_cast hk) (by norm_num)
  have hmin : min ((Party.mk nc ((k : ℚ) / 100)).balance)
      (-(Party.mk nd (-((k : ℚ) / 100))).balance) = (k : ℚ) / 100 := by
    show min ((k : ℚ) / 100) (-(-((k : ℚ) / 100))) = (k : ℚ) / 100
    rw [neg_neg, min_self]
  rw [settleLoop_cons, hmin, rnd2_cents_fixed]
  rw [if_pos (by show |(k : ℚ) / 100 - (k : ℚ) / 100| < 1 / 100; simp),
    if_pos (by show |-((k : ℚ) / 100) + (k : ℚ) / 100| < 1 / 100; simp),
    if_pos hkq, settleLoop_nil_left, List.nil_append]

/-- One creditor against a smaller whole-cent debtor: the debtor is paid off
in full and removed, the creditor keeps the remainder, and the loop ends with
the debtor list empty. -/
theorem settleLoop_single_partial (nc nd : String) (b : ℚ) (j : ℕ) (hj : 0 < j)
    (hbj : (j : ℚ) / 100 + 1 / 100 ≤ b) :
    settleLoop [⟨nc, b⟩] [⟨nd, -((j : ℚ) / 100)⟩] [] =
      [⟨nd, nc, toFixed2 ((j : ℚ) / 100)⟩] := by
  have hjq : (0 : ℚ) < (j : ℚ) / 100 := div_pos (by exact_mod_cast hj) (by norm_num)
  have hmin : min ((Party.mk nc b).balance) (-(Party.mk nd (-((j : ℚ) / 100))).balance) =
      (j : ℚ) / 100 := by
    show min b (-(-((j : ℚ) / 100))) = (j : ℚ) / 100
    rw [neg_neg, min_eq_right (by linarith)]
  rw [settleLoop_cons, hmin, rnd2_cents_fixed]
  rw [if_neg (by
      show ¬|(Party.mk nc b).balance - (j : ℚ) / 100| < 1 / 100
      show ¬|b - (j : ℚ) / 100| < 1 / 100
      rw [abs_of_nonneg (by linarith)]
      linarith),
    if_pos (by show |-((j : ℚ) / 100) + (j : ℚ) / 100| < 1 / 100; simp),
    if_pos hjq, settleLoop_nil_right, List.nil_append]

/-- Opposite balances strictly below half a cent round to a zero amount: no
transaction is emitted and both parties are dropped. -/
theorem settleLoop_single_zero (nc nd : String) (b : ℚ) (hb : 0 < b) (hb2 : b < 1 / 200) :
    settleLoop [⟨nc, b⟩] [⟨nd, -b⟩] [] = [] := by
  have hfl : ⌊b * 100 + 1 / 2⌋ = 0 := by
    rw [Int.floor_eq_iff]
    constructor <;> push_cast <;> linarith
  have hr : rnd2 b = 0 := by
    unfold rnd2
    rw [hfl]
    norm_num
  have hmin : min ((Party.mk nc b).balance) (-(Party.mk nd (-b)).balance) = b := by
    show min b (-(-b)) = b
    rw [neg_neg, min_self]
  have hc1 : |(Party.mk nc b).balance - 0| < 1 / 100 := by
    show |b - 0| < 1 / 100
    rw [sub_zero, abs_of_pos hb]
    linarith
  have hc2 : |(Party.mk nd (-b)).balance + 0| < 1 / 100 := by
    show |-b + 0| < 1 / 100
    rw [add_zero, abs_neg, abs_of_pos hb]
    linarith
  rw [settleLoop_cons, hmin, hr, if_pos hc1, if_pos hc2, if_neg (lt_irrefl (0 : ℚ)),
    settleLoop_nil_left]

/-- Concrete run: `"A"` spends 90 among `["A", "B"]`; the creditor list is
`[A ↦ 45]` (90 spent minus the fair share 45). -/
theorem creditors_AB_90 :
    creditorsOf (validMembersOf ["A", "B"]) [⟨"A", ⟨true, some 90⟩⟩] = [⟨"A", 45⟩] := by
  rw [show validMembersOf ["A", "B"] = ["A", "B"] from by decide]
  simp +decide only [creditorsOf, creditorsTS, balanceTS, totalSpentAfter, spendStep,
    initSpent, List.foldl, totalExpensesTS, fairShareTS, jsAdd, jsSub, objectKeys,
    List.filterMap, List.filter]
  simp +decide
  norm_num

/-- Concrete run: `"A"` spends 90 among `["A", "B"]`; the debtor list is
`[B ↦ -45]`. -/
theorem debtors_AB_90 :
    debtorsOf (validMembersOf ["A", "B"]) [⟨"A", ⟨true, some 90⟩⟩] = [⟨"B", -(45 : ℚ)⟩] := by
  rw [show validMembersOf ["A", "B"] = ["A", "B"] from by decide]
  simp +decide only [debtorsOf, debtorsTS, balanceTS, totalSpentAfter, spendStep,
    initSpent, List.foldl, totalExpensesTS, fairShareTS, jsAdd, jsSub, objectKeys,
    List.filterMap, List.filter]
  simp +decide
  norm_num

/-- Concrete run of the full pipeline: `"A"` spends 90 among `["A", "B"]`
settles with the single transaction `B → A, "45.00"`. -/
theorem calc_AB_90 :
    calculateExpenseSplit (some [⟨"A", ⟨true, some 90⟩⟩]) (some ["A", "B"]) =
      [⟨"B", "A", "45.00"⟩] := by
  rw [calc_eq_loop_always, creditors_AB_90, debtors_AB_90]
  have hloop := settleLoop_single_exact "A" "B" 4500 (by norm_num)
  rw [toFixed2_cents, show (⟨centsChars 4500⟩ : String) = "45.00" from by decide] at hloop
  rw [show (((4500 : ℕ) : ℚ) / 100) = 45 from by norm_num] at hloop
  rw [show sortCreditors [(⟨"A", 45⟩ : Party)] = [⟨"A", 45⟩] from rfl,
    show sortDebtors [(⟨"B", -(45 : ℚ)⟩ : Party)] = [⟨"B", -(45 : ℚ)⟩] from rfl]
  exact hloop

/-- Concrete run: `"A"` spends 90 among `["A", "B", "A"]` (a duplicate name);
the fair share divides by 3, so the creditor list is `[A ↦ 60]`. -/
theorem creditors_ABA_90 :
    creditorsOf (validMembersOf ["A", "B", "A"]) [⟨"A", ⟨true, some 90⟩⟩] = [⟨"A", 60⟩] := by
  rw [show validMembersOf ["A", "B", "A"] = ["A", "B", "A"] from by decide]
  simp +decide only [creditorsOf, creditorsTS, balanceTS, totalSpentAfter, spendStep,
    initSpent, List.foldl, totalExpensesTS, fairShareTS, jsAdd, jsSub, objectKeys,
    List.filterMap, List.filter]
  simp +decide
  norm_num

/-- Concrete run: `"A"` spends 90 among `["A", "B", "A"]`; the debtor list is
`[B ↦ -30]`. -/
theorem debtors_ABA_90 :
    debtorsOf (validMembersOf ["A", "B", "A"]) [⟨"A", ⟨true, some 90⟩⟩] =
      [⟨"B", -(30 : ℚ)⟩] := by
  rw [show validMembersOf ["A", "B", "A"] = ["A", "B", "A"] from by decide]
  simp +decide only [debtorsOf, debtorsTS, balanceTS, totalSpentAfter, spendStep,
    initSpent, List.foldl, totalExpensesTS, fairShareTS, jsAdd, jsSub, objectKeys,
    List.filterMap, List.filter]
  simp +decide
  norm_num

/-- Concrete run of the full pipeline: with the duplicated member list
`["A", "B", "A"]` the same expense settles with the single transaction
`B → A, "30.00"` — the debtor `B` owes only one third of the total. -/
theorem calc_ABA_90 :
    calculateExpenseSplit (some [⟨"A", ⟨true, some 90⟩⟩]) (some ["A", "B", "A"]) =
      [⟨"B", "A", "30.00"⟩] := by
  rw [calc_eq_loop_always, creditors_ABA_90, debtors_ABA_90]
  have hloop := settleLoop_single_partial "A" "B" 60 3000 (by norm_num) (by norm_num)
  rw [toFixed2_cents, show (⟨centsChars 3000⟩ : String) = "30.00" from by decide] at hloop
  rw [show (((3000 : ℕ) : ℚ) / 100) = 30 from by norm_num] at hloop
  rw [show sortCreditors [(⟨"A", 60⟩ : Party)] = [⟨"A", 60⟩] from rfl,
    show sortDebtors [(⟨"B", -(30 : ℚ)⟩ : Party)] = [⟨"B", -(30 : ℚ)⟩] from rfl]
  exact hloop

/-- Concrete run: with the duplicated member list, `"A"`'s balance is 60. -/
theorem balance_ABA_90 :
    balanceOf (validMembersOf ["A", "B", "A"]) [⟨"A", ⟨true, some 90⟩⟩] "A" = some 60 := by
  rw [show validMembersOf ["A", "B", "A"] = ["A", "B", "A"] from by decide]
  simp +decide only [balanceOf, balanceTS, totalSpentAfter, spendStep,
    initSpent, List.foldl, totalExpensesTS, fairShareTS, jsAdd, jsSub, objectKeys,
    List.filterMap, List.filter]
  simp +decide
  norm_num

/-- Concrete run: `"A"` spends `1/250` (0.4 cents) among `["A", "B"]`; the
creditor list is `[A ↦ 1/500]` (a balance of 0.2 cents). -/
theorem creditors_tiny :
    creditorsOf (validMembersOf ["A", "B"]) [⟨"A", ⟨true, some (1 / 250)⟩⟩] =
      [⟨"A", 1 / 500⟩] := by
  rw [show validMembersOf ["A", "B"] = ["A", "B"] from by decide]
  simp +decide only [creditorsOf, creditorsTS, balanceTS, totalSpentAfter, spendStep,
    initSpent, List.foldl, totalExpensesTS, fairShareTS, jsAdd, jsSub, objectKeys,
    List.filterMap, List.filter]
  simp +decide
  norm_num

/-- Concrete run: `"A"` spends `1/250` among `["A", "B"]`; the debtor list is
`[B ↦ -1/500]`. -/
theorem debtors_tiny :
    debtorsOf (validMembersOf ["A", "B"]) [⟨"A", ⟨true, some (1 / 250)⟩⟩] =
      [⟨"B", -(1 / 500 : ℚ)⟩] := by
  rw [show validMembersOf ["A", "B"] = ["A", "B"] from by decide]
  simp +decide only [debtorsOf, debtorsTS, balanceTS, totalSpentAfter, spendStep,
    initSpent, List.foldl, totalExpensesTS, fairShareTS, jsAdd, jsSub, objectKeys,
    List.filterMap, List.filter]
  simp +decide
  norm_num

/-- Concrete run: `"A"` spends `1/250` among `["A", "B"]`; `"A"`'s balance is
`1/500` — a genuine creditor. -/
theorem balance_tiny :
    balanceOf (validMembersOf ["A", "B"]) [⟨"A", ⟨true, some (1 / 250)⟩⟩] "A" =
      some (1 / 500) := by
  rw [show validMembersOf ["A", "B"] = ["A", "B"] from by decide]
  simp +decide only [balanceOf, balanceTS, totalSpentAfter, spendStep,
    initSpent, List.foldl, totalExpensesTS, fairShareTS, jsAdd, jsSub, objectKeys,
    List.filterMap, List.filter]
  simp +decide
  norm_num

/-- Concrete run of the full pipeline: the `1/500` balances round to a zero
amount, both parties are dropped, and no transaction is emitted. -/
theorem calc_tiny :
    calculateExpenseSplit (some [⟨"A", ⟨true, some (1 / 250)⟩⟩]) (some ["A", "B"]) = [] := by
  rw [calc_eq_loop_always, creditors_tiny, debtors_tiny]
  have hloop := settleLoop_single_zero "A" "B" (1 / 500) (by norm_num) (by norm_num)
  rw [show sortCreditors [(⟨"A", 1 / 500⟩ : Party)] = [⟨"A", 1 / 500⟩] from rfl,
    show sortDebtors [(⟨"B", -(1 / 500 : ℚ)⟩ : Party)] = [⟨"B", -(1 / 500 : ℚ)⟩] from rfl]
  exact hloop

/-- Concrete run: after a truthy NaN-amount expense by `"A"`, a second truthy
expense of 6 by `"A"` resets the entry via `(totalSpent[payer] || 0)`: the
aggregated total is 6, not NaN. -/
theorem spent_nan_overwrite :
    totalSpentAfter (validMembersOf ["A", "B"])
      [⟨"A", ⟨true, none⟩⟩, ⟨"A", ⟨true, some 6⟩⟩] "A" = some 6 := by
  rw [show validMembersOf ["A", "B"] = ["A", "B"] from by decide]
  simp +decide only [totalSpentAfter, spendStep, initSpent, List.foldl]
  simp +decide

/-- Concrete run: with the NaN expense overwritten, the creditor list is
`[A ↦ 3]`. -/
theorem creditors_nan_overwrite :
    creditorsOf (validMembersOf ["A", "B"]) [⟨"A", ⟨true, none⟩⟩, ⟨"A", ⟨true, some 6⟩⟩] =
      [⟨"A", 3⟩] := by
  rw [show validMembersOf ["A", "B"] = ["A", "B"] from by decide]
  simp +decide only [creditorsOf, creditorsTS, balanceTS, totalSpentAfter, spendStep,
    initSpent, List.foldl, totalExpensesTS, fairShareTS, jsAdd, jsSub, objectKeys,
    List.filterMap, List.filter]
  simp +decide
  norm_num

/-- Concrete run: with the NaN expense overwritten, the debtor list is
`[B ↦ -3]`. -/
theorem debtors_nan_overwrite :
    debtorsOf (validMembersOf ["A", "B"]) [⟨"A", ⟨true, none⟩⟩, ⟨"A", ⟨true, some 6⟩⟩] =
      [⟨"B", -(3 : ℚ)⟩] := by
  rw [show validMembersOf ["A", "B"] = ["A", "B"] from by decide]
  simp +decide only [debtorsOf, debtorsTS, balanceTS, totalSpentAfter, spendStep,
    initSpent, List.foldl, totalExpensesTS, fairShareTS, jsAdd, jsSub, objectKeys,
    List.filterMap, List.filter]
  simp +decide
  norm_num

/-- Concrete run of the full pipeline: a truthy NaN-amount expense followed by
a truthy expense of 6 by the same payer settles normally with the transaction
`B → A, "3.00"` — the NaN does not poison the result. -/
theorem calc_nan_overwrite :
    calculateExpenseSplit (some [⟨"A", ⟨true, none⟩⟩, ⟨"A", ⟨true, some 6⟩⟩])
      (some ["A", "B"]) = [⟨"B", "A", "3.00"⟩] := by
  rw [calc_eq_loop_always, creditors_nan_overwrite, debtors_nan_overwrite]
  have hloop := settleLoop_single_exact "A" "B" 300 (by norm_num)
  rw [toFixed2_cents, show (⟨centsChars 300⟩ : String) = "3.00" from by decide] at hloop
  rw [show (((300 : ℕ) : ℚ) / 100) = 3 from by norm_num] at hloop
  rw [show sortCreditors [(⟨"A", 3⟩ : Party)] = [⟨"A", 3⟩] from rfl,
    show sortDebtors [(⟨"B", -(3 : ℚ)⟩ : Party)] = [⟨"B", -(3 : ℚ)⟩] from rfl]
  exact hloop

/-- **C1 (amended).** Conservation of settlement: when the valid-member list
has no duplicate names, each member whose balance is a number `b > 0` is
credited, over all emitted transactions pointing to it, a total within
strictly less than `0.01 × (|creditors| + |debtors|)` of `b`; the analogous
bound holds for each member with balance `b < 0` over the transactions drawn
from it. (The claim's original per-member tolerance `0.01 × number of touching
transactions` is too tight, and with duplicate names conservation fails
outright — see the counterexample.) -/
theorem C1_conservation_amended (es : List Expense) (ms : List String)
    (hnd : (validMembersOf ms).Nodup) :
    (∀ m b, balanceOf (validMembersOf ms) es m = some b → 0 < b →
      |creditedTo m (calculateExpenseSplit (some es) (some ms)) - b| <
        ((creditorsOf (validMembersOf ms) es).length +
          (debtorsOf (validMembersOf ms) es).length) * (1 / 100)) ∧
    (∀ m b, balanceOf (validMembersOf ms) es m = some b → b < 0 →
      |debitedFrom m (calculateExpenseSplit (some es) (some ms)) - (-b)| <
        ((creditorsOf (validMembersOf ms) es).length +
          (debtorsOf (validMembersOf ms) es).length) * (1 / 100)) := by
  have hCp := sortCreditors_perm (creditorsOf (validMembersOf ms) es)
  have hDp := sortDebtors_perm (debtorsOf (validMembersOf ms) es)
  have hCpos : ∀ x ∈ sortCreditors (creditorsOf (validMembersOf ms) es), 0 < x.balance :=
    fun x hx => (creditorsTS_balance x (hCp.mem_iff.mp hx)).1
  have hDneg : ∀ x ∈ sortDebtors (debtorsOf (validMembersOf ms) es), x.balance < 0 :=
    fun x hx => (debtorsTS_balance x (hDp.mem_iff.mp hx)).1
  constructor
  · intro m b hb h0
    have hm : m ∈ validMembersOf ms := balanceOf_some_mem hb
    have hvm_ne : validMembersOf ms ≠ [] := fun h => by
      rw [h] at hm; exact List.not_mem_nil m hm
    obtain ⟨T, hT⟩ := balanceOf_some_T hb
    have hbts : balanceTS (validMembersOf ms)
        (totalSpentAfter (validMembersOf ms) es) m = some b := hb
    have hp : (⟨m, b⟩ : Party) ∈
        creditorsTS (validMembersOf ms) (totalSpentAfter (validMembersOf ms) es) :=
      mem_creditorsTS hm hbts h0
    have hσ := balance_sum_zero hnd hvm_ne hT
    have hCnd : ((sortCreditors (creditorsOf (validMembersOf ms) es)).map Party.name).Nodup := by
      have hsub := creditorsTS_names_sublist (validMembersOf ms)
        (totalSpentAfter (validMembersOf ms) es)
      rw [objectKeys_of_nodup hnd] at hsub
      exact ((hCp.map Party.name).nodup_iff).mpr (hsub.nodup hnd)
    have hmem : (⟨m, b⟩ : Party) ∈ sortCreditors (creditorsOf (validMembersOf ms) es) :=
      hCp.mem_iff.mpr hp
    have hsum : ((sortCreditors (creditorsOf (validMembersOf ms) es)).map Party.balance).sum +
        ((sortDebtors (debtorsOf (validMembersOf ms) es)).map Party.balance).sum = 0 := by
      rw [(hCp.map Party.balance).sum_eq, (hDp.map Party.balance).sum_eq]
      exact hσ
    have hmain := settle_credit (sortCreditors (creditorsOf (validMembersOf ms) es))
      (sortDebtors (debtorsOf (validMembersOf ms) es)) [] ⟨m, b⟩ 0
      hCnd hCpos hDneg hmem hsum
    rw [abs_zero, zero_add, hCp.length_eq, hDp.length_eq] at hmain
    rw [calc_eq_loop_always]
    exact hmain
  · intro m b hb h0
    have hm : m ∈ validMembersOf ms := balanceOf_some_mem hb
    have hvm_ne : validMembersOf ms ≠ [] := fun h => by
      rw [h] at hm; exact List.not_mem_nil m hm
    obtain ⟨T, hT⟩ := balanceOf_some_T hb
    have hbts : balanceTS (validMembersOf ms)
        (totalSpentAfter (validMembersOf ms) es) m = some b := hb
    have hp : (⟨m, b⟩ : Party) ∈
        debtorsTS (validMembersOf ms) (totalSpentAfter (validMembersOf ms) es) :=
      mem_debtorsTS hm hbts h0
    have hσ := balance_sum_zero hnd hvm_ne hT
    have hDnd : ((sortDebtors (debtorsOf (validMembersOf ms) es)).map Party.name).Nodup := by
      have hsub := debtorsTS_names_sublist (validMembersOf ms)
        (totalSpentAfter (validMembersOf ms) es)
      rw [objectKeys_of_nodup hnd] at hsub
      exact ((hDp.map Party.name).nodup_iff).mpr (hsub.nodup hnd)
    have hmem : (⟨m, b⟩ : Party) ∈ sortDebtors (debtorsOf (validMembersOf ms) es) :=
      hDp.mem_iff.mpr hp
    have hsum : ((sortCreditors (creditorsOf (validMembersOf ms) es)).map Party.balance).sum +
        ((sortDebtors (debtorsOf (validMembersOf ms) es)).map Party.balance).sum = 0 := by
      rw [(hCp.map Party.balance).sum_eq, (hDp.map Party.balance).sum_eq]
      exact hσ
    have hmain := settle_debit (sortCreditors (creditorsOf (validMembersOf ms) es))
      (sortDebtors (debtorsOf (validMembersOf ms) es)) [] ⟨m, b⟩ 0
      hDnd hCpos hDneg hmem hsum
    rw [abs_zero, zero_add, hCp.length_eq, hDp.length_eq] at hmain
    rw [calc_eq_loop_always]
    exact hmain

/-- Counterexample for **C1** as stated: (1) with the duplicate-free members
`["A", "B"]` and one expense of `1/250`, `"A"` is a creditor with balance
`1/500`, but the output is empty, so zero transactions touch `"A"` and the
claimed tolerance `0.01 × touching` is `0 < 1/500`; (2) with the duplicated
members `["A", "B", "A"]` and one expense of 90, `"A"`'s balance is 60 but
only `30.00` is credited — off by 30, far beyond `0.01 × 1`. -/
theorem C1_conservation_counterexample :
    ((validMembersOf ["A", "B"]).Nodup ∧
      balanceOf (validMembersOf ["A", "B"]) [⟨"A", ⟨true, some (1 / 250)⟩⟩] "A" =
        some (1 / 500) ∧ (0 : ℚ) < 1 / 500 ∧
      ¬(|creditedTo "A" (calculateExpenseSplit (some [⟨"A", ⟨true, some (1 / 250)⟩⟩])
            (some ["A", "B"])) - 1 / 500| ≤
        (touchCount "A" (calculateExpenseSplit (some [⟨"A", ⟨true, some (1 / 250)⟩⟩])
            (some ["A", "B"]))) * (1 / 100))) ∧
    (balanceOf (validMembersOf ["A", "B", "A"]) [⟨"A", ⟨true, some 90⟩⟩] "A" = some 60 ∧
      (0 : ℚ) < 60 ∧
      ¬(|creditedTo "A" (calculateExpenseSplit (some [⟨"A", ⟨true, some 90⟩⟩])
            (some ["A", "B", "A"])) - 60| ≤
        (touchCount "A" (calculateExpenseSplit (some [⟨"A", ⟨true, some 90⟩⟩])
            (some ["A", "B", "A"]))) * (1 / 100))) := by
  refine ⟨⟨by decide, balance_tiny, by norm_num, ?_⟩, ⟨balance_ABA_90, by norm_num, ?_⟩⟩
  · rw [calc_tiny]
    rw [creditedTo_nil, show touchCount "A" [] = 0 from rfl]
    norm_num
  · rw [calc_ABA_90]
    have hpa : parseAmount "30.00" = 30 := by
      rw [show ("30.00" : String) = ⟨centsChars 3000⟩ from by decide, parseAmount_centsChars]
      norm_num
    have hcred : creditedTo "A" [⟨"B", "A", "30.00"⟩] = 30 := by
      simp +decide only [creditedTo, List.filter, List.map, List.sum]
      simp [hpa]
    have htouch : touchCount "A" [⟨"B", "A", "30.00"⟩] = 1 := by decide
    rw [hcred, htouch]
    norm_num

/-- Witness for **C1 (amended)**: the duplicate-free member list `["A", "B"]`
with one expense of 90 satisfies the amended conservation bound. -/
theorem C1_conservation_amended_witness :
    (validMembersOf ["A", "B"]).Nodup ∧
    ((∀ m b, balanceOf (validMembersOf ["A", "B"]) [⟨"A", ⟨true, some 90⟩⟩] m = some b →
        0 < b →
      |creditedTo m (calculateExpenseSplit (some [⟨"A", ⟨true, some 90⟩⟩])
          (some ["A", "B"])) - b| <
        ((creditorsOf (validMembersOf ["A", "B"]) [⟨"A", ⟨true, some 90⟩⟩]).length +
          (debtorsOf (validMembersOf ["A", "B"]) [⟨"A", ⟨true, some 90⟩⟩]).length) *
          (1 / 100)) ∧
    (∀ m b, balanceOf (validMembersOf ["A", "B"]) [⟨"A", ⟨true, some 90⟩⟩] m = some b →
        b < 0 →
      |debitedFrom m (calculateExpenseSplit (some [⟨"A", ⟨true, some 90⟩⟩])
          (some ["A", "B"])) - (-b)| <
        ((creditorsOf (validMembersOf ["A", "B"]) [⟨"A", ⟨true, some 90⟩⟩]).length +
          (debtorsOf (validMembersOf ["A", "B"]) [⟨"A", ⟨true, some 90⟩⟩]).length) *
          (1 / 100))) :=
  ⟨by decide, C1_conservation_amended [⟨"A", ⟨true, some 90⟩⟩] ["A", "B"] (by decide)⟩

/-- Counterexample for **C9** as stated: `"A"` is already a (valid) member of
`["A", "B"]`, yet appending the duplicate `"A"` changes the settlement output
— `["A", "B", "A"]` yields `B → A, "30.00"` where `["A", "B"]` yields
`B → A, "45.00"`, because the fair share divides by the member count with
multiplicity. -/
theorem C9_duplicate_name_counterexample :
    ("A" ∈ validMembersOf ["A", "B"]) ∧
    calculateExpenseSplit (some [⟨"A", ⟨true, some 90⟩⟩]) (some (["A", "B"] ++ ["A"])) ≠
      calculateExpenseSplit (some [⟨"A", ⟨true, some 90⟩⟩]) (some ["A", "B"]) := by
  refine ⟨by decide, ?_⟩
  rw [show (["A", "B"] ++ ["A"]) = ["A", "B", "A"] from rfl, calc_ABA_90, calc_AB_90]
  decide

/-- Counterexample for **C10** as stated: the first expense has a valid payer
`"A"` and a truthy NaN amount, yet the output is not empty — a later truthy
expense by `"A"` resets the poisoned entry via `(totalSpent[payer] || 0)` and
the function emits `B → A, "3.00"`. -/
theorem C10_nan_poisoning_counterexample :
    ((⟨"A", ⟨true, none⟩⟩ : Expense).payer ∈ validMembersOf ["A", "B"]) ∧
    (⟨"A", ⟨true, none⟩⟩ : Expense).amount.truthy = true ∧
    (⟨"A", ⟨true, none⟩⟩ : Expense).amount.toNum = none ∧
    calculateExpenseSplit (some [⟨"A", ⟨true, none⟩⟩, ⟨"A", ⟨true, some 6⟩⟩])
      (some ["A", "B"]) ≠ [] := by
  refine ⟨by decide, rfl, rfl, ?_⟩
  rw [calc_nan_overwrite]
  decide

/-- Witness for **C4**: the transaction `B → A, "45.00"` is in the output for
one expense of 90 among `["A", "B"]`, and its amount string has the required
form. -/
theorem C4_amount_form_witness :
    ((⟨"B", "A", "45.00"⟩ : Txn) ∈
        calculateExpenseSplit (some [⟨"A", ⟨true, some 90⟩⟩]) (some ["A", "B"])) ∧
    (∃ k : ℕ, 0 < k ∧ (⟨"B", "A", "45.00"⟩ : Txn).amount = toFixed2 ((k : ℚ) / 100) ∧
      parseAmount (⟨"B", "A", "45.00"⟩ : Txn).amount = (k : ℚ) / 100 ∧
      0 < parseAmount (⟨"B", "A", "45.00"⟩ : Txn).amount ∧
      (fracChars (⟨"B", "A", "45.00"⟩ : Txn).amount).length = 2 ∧
      ∀ c ∈ fracChars (⟨"B", "A", "45.00"⟩ : Txn).amount, c.isDigit = true) :=
  ⟨by rw [calc_AB_90]; exact List.mem_singleton.mpr rfl,
   C4_amount_form [⟨"A", ⟨true, some 90⟩⟩] ["A", "B"] ⟨"B", "A", "45.00"⟩
     (by rw [calc_AB_90]; exact List.mem_singleton.mpr rfl)⟩

end TidyTabs
